import Mathlib

-- Verification development for the Unreal-C++ code-completion resolver
-- (src/scanner/src/completion.rs).  The Rust functions are shallowly embedded
-- over `List Char` strings; SQL queries are modelled as list traversals over a
-- relational database value; the tree-sitter parse tree is modelled as a rose
-- tree with a zipper for parent/sibling navigation.  Recursive Rust loops are
-- embedded with an explicit fuel parameter (fuel exhaustion modelling
-- non-termination), so that every definition is executable by kernel
-- reduction.  Characters are treated as ASCII, matching the byte-oriented
-- behaviour of the Rust code on ASCII input.

set_option maxRecDepth 100000

/-- Strings of the Rust program, modelled as lists of characters. -/
abbrev Str := List Char

/-- Coerce a Lean string literal to the `List Char` model. -/
def strL (s : String) : Str := s.data

/-- ASCII whitespace, the ASCII fragment of Rust `char::is_whitespace` and of
the regex class `\s`. -/
def isWsChar (c : Char) : Bool :=
  c = ' ' ∨ c = '\t' ∨ c = '\n' ∨ c = '\r' ∨ c = Char.ofNat 11 ∨ c = Char.ofNat 12

/-- ASCII word character, the ASCII fragment of the regex class `\w` used by
the word-boundary assertion `\b`. -/
def isWordChar (c : Char) : Bool := c.isAlphanum ∨ c = '_'

/-- ASCII lower-casing, the semantics of SQLite `LOWER`. -/
def lowerChar (c : Char) : Char :=
  if 'A' ≤ c ∧ c ≤ 'Z' then Char.ofNat (c.toNat + 32) else c

/-- SQLite `LOWER` on a whole string. -/
def lowerStr (s : Str) : Str := s.map lowerChar

/-- Rust `str::trim_start` (ASCII fragment). -/
def trimLeft (s : Str) : Str := s.dropWhile isWsChar

/-- Rust `str::trim_end` (ASCII fragment). -/
def trimRight (s : Str) : Str := (s.reverse.dropWhile isWsChar).reverse

/-- Rust `str::trim` (ASCII fragment). -/
def trim (s : Str) : Str := trimRight (trimLeft s)

/-- Split a string at the first occurrence of `c` (Rust `str::find`):
returns the part before and the part after that occurrence. -/
def splitFirst (c : Char) : Str → Option (Str × Str)
  | [] => none
  | a :: as =>
    if a = c then some ([], as)
    else (splitFirst c as).map (fun p => (a :: p.1, p.2))

/-- Split a string at the last occurrence of `c` (Rust `str::rfind`):
returns the part before and the part after that occurrence. -/
def splitLast (c : Char) (s : Str) : Option (Str × Str) :=
  (splitFirst c s.reverse).map (fun p => (p.2.reverse, p.1.reverse))

/-- Worker for `splitWs`; `cur` is the current (reversed) run of
non-whitespace characters. -/
def splitWsGo : Str → Str → List Str
  | [], cur => if cur = [] then [] else [cur.reverse]
  | c :: rest, cur =>
    if isWsChar c then
      if cur = [] then splitWsGo rest [] else cur.reverse :: splitWsGo rest []
    else splitWsGo rest (c :: cur)

/-- Rust `str::split_whitespace`: the maximal non-empty runs of
non-whitespace characters. -/
def splitWs (s : Str) : List Str := splitWsGo s []

/-- Worker for `splitColons`. -/
def splitColonsGo : Str → Str → List Str
  | [], cur => [cur.reverse]
  | [c], cur => [(c :: cur).reverse]
  | c1 :: c2 :: rest, cur =>
    if c1 = ':' ∧ c2 = ':' then cur.reverse :: splitColonsGo rest []
    else splitColonsGo (c2 :: rest) (c1 :: cur)

/-- Rust `str::split("::")`: split on non-overlapping occurrences of `::`,
scanning left to right.  Always returns at least one (possibly empty)
segment, as in Rust. -/
def splitColons (s : Str) : List Str := splitColonsGo s []

/-- Does the word-boundary assertion `\b` hold between the previous character
(`none` at the start of the string) and a following word character? -/
def prevNonWord : Option Char → Bool
  | none => true
  | some c => !isWordChar c

/-- Does the word-boundary assertion `\b` hold at the start of `s`, coming
from a word character?  True at the end of the string. -/
def headNonWord : Str → Bool
  | [] => true
  | c :: _ => !isWordChar c

/-- Worker for `removeWordBounded`: scan with the previous original character
in `prev`; delete each leftmost non-overlapping match of `\bkw\b`, exactly as
Rust `Regex::replace_all` with an empty replacement.  The fuel is at least the
length of the remaining string at every call, so the fuel-out branch is never
reached from `removeWordBounded`. -/
def rwbGo (kw : Str) : Nat → Option Char → Str → Str
  | 0, _, s => s
  | _ + 1, _, [] => []
  | fuel + 1, prev, c :: rest =>
    if prevNonWord prev ∧ kw.isPrefixOf (c :: rest) ∧
        headNonWord ((c :: rest).drop kw.length) then
      rwbGo kw fuel kw.getLast? ((c :: rest).drop kw.length)
    else c :: rwbGo kw fuel (some c) rest

/-- Rust `Regex::replace_all` of the pattern `\bkw\b` (for a non-empty keyword
`kw` made of word characters) with the empty string. -/
def removeWordBounded (kw : Str) (s : Str) : Str := rwbGo kw s.length none s

/-- The keyword tokens removed by `extract_clean_type`, in source order. -/
def cleanKeywords : List Str :=
  [strL "const", strL "typename", strL "struct", strL "class", strL "enum",
   strL "virtual", strL "static", strL "inline", strL "FORCEINLINE"]

/-- Apply the nine keyword-removal regexes of `extract_clean_type` in order. -/
def removeKeywords (s : Str) : Str :=
  cleanKeywords.foldl (fun acc kw => removeWordBounded kw acc) s

/-- Character class `[A-Z0-9_]` of the Unreal API-macro regex. -/
def apiChar (c : Char) : Bool :=
  ('A' ≤ c ∧ c ≤ 'Z') ∨ ('0' ≤ c ∧ c ≤ '9') ∨ c = '_'

/-- Does `[A-Z0-9_]{k}` followed by the literal `_API` followed by `\b` match
at the start of `s`, for this particular `k ≥ 1`? -/
def apiOkAt (s : Str) (k : Nat) : Bool :=
  1 ≤ k ∧ (s.take k).all apiChar ∧ (strL "_API").isPrefixOf (s.drop k) ∧
    headNonWord (s.drop (k + 4))

/-- Greedy search for the largest repetition count `k` making the API-macro
pattern match at the start of `s` (regex `+` is greedy and backtracks). -/
def findApiK (s : Str) : Nat → Option Nat
  | 0 => none
  | k + 1 => if apiOkAt s (k + 1) then some (k + 1) else findApiK s k

/-- Worker for `removeApi`, scanning like `rwbGo`; a match consumes `k + 4`
characters and the character preceding the next scan position in the original
string is the final `I` of `_API`. -/
def removeApiGo : Nat → Option Char → Str → Str
  | 0, _, s => s
  | _ + 1, _, [] => []
  | fuel + 1, prev, c :: rest =>
    if prevNonWord prev then
      match findApiK (c :: rest) (c :: rest).length with
      | some k => removeApiGo fuel (some 'I') ((c :: rest).drop (k + 4))
      | none => c :: removeApiGo fuel (some c) rest
    else c :: removeApiGo fuel (some c) rest

/-- Rust `Regex::replace_all` of the pattern `\b[A-Z0-9_]+_API\b` with the
empty string. -/
def removeApi (s : Str) : Str := removeApiGo s.length none s

/-- The Unreal smart-pointer wrappers peeled by `extract_clean_type`, in
source order. -/
def wrapperNames : List Str :=
  [strL "TObjectPtr", strL "TSharedPtr", strL "TUniquePtr",
   strL "TWeakObjectPtr", strL "TSubclassOf", strL "TSoftObjectPtr",
   strL "TSoftClassPtr", strL "TEnumAsByte"]

/-- The non-template tail of `extract_clean_type`: remove keywords, remove
API macros, replace `*` and `&` by spaces, take the last whitespace token,
then the last `::` segment. -/
def finishClean (s : Str) : Str :=
  let s1 := removeKeywords s
  let s2 := removeApi s1
  let s3 := s2.map (fun c => if c = '*' ∨ c = '&' then ' ' else c)
  let lastTok := (splitWs s3).getLast?.getD []
  (splitColons lastTok).getLast?.getD []

/-- Fuelled body of `extract_clean_type` (`completion.rs`, `extract_clean_type`).
The template branch fires when the trimmed string has a `<` and a later `>`;
the wrapper is the trimmed part before the first `<` and the inner argument is
the part between the first `<` and the last `>`.  When the only `>` lies
before the first `<` the Rust slice `clean[start+1..end]` would panic; that
unreachable-in-practice case is modelled as the no-template branch.  Fuel is
the string length, which bounds the peeling depth; the fuel-out branch is
never reached from `extract_clean_type`. -/
def cleanGo : Nat → Str → Str
  | 0, raw => finishClean (trim raw)
  | fuel + 1, raw =>
    let cl := trim raw
    match splitFirst '<' cl with
    | none => finishClean cl
    | some (w, rest) =>
      match splitLast '>' rest with
      | none => finishClean cl
      | some (inner, _) =>
        let wrapper := trim w
        if wrapper ∈ wrapperNames then cleanGo fuel inner
        else finishClean wrapper

/-- `extract_clean_type` from `completion.rs`: normalise a raw C++ type
string to a bare type name. -/
def extract_clean_type (raw : Str) : Str := cleanGo raw.length raw

example : extract_clean_type (strL "TObjectPtr<UFoo>") = strL "UFoo" := by decide

example : extract_clean_type (strL "const UFoo*") = strL "UFoo" := by decide

example : extract_clean_type (strL "UE::Math::TTransform<double>") =
    strL "TTransform" := by decide

example : extract_clean_type (strL "CORE_API AActor*") = strL "AActor" := by
  decide

example : extract_clean_type (strL "TArray<FFoo>") = strL "TArray" := by decide

example : extract_clean_type (strL "TSubclassOf<TObjectPtr<UBar>>") =
    strL "UBar" := by decide

-- ## Symbol database model
-- The relational store consumed read-only by the resolver (spec section 3).
-- Lists model tables in row order; SQL `SELECT ... LIMIT 1` without a
-- deterministic `ORDER BY` tie-break is modelled as picking the first row in
-- table order among the best-ranked ones.  SQL `=` on text uses the default
-- BINARY collation, i.e. exact character equality; `LOWER` is `lowerStr`.

/-- A row of the `classes` table. -/
structure ClassRow where
  id : Int
  name : Str
  symbol_type : Str
  base_class : Option Str
deriving DecidableEq, Repr

/-- A row of the `members` table (the columns the resolver reads). -/
structure MemberRow where
  class_id : Int
  name : Str
  mtype : Str
  return_type : Option Str
  detail : Option Str
deriving DecidableEq, Repr

/-- A row of the `inheritance` table. -/
structure InheritanceRow where
  child_id : Int
  parent_name : Str
deriving DecidableEq, Repr

/-- A row of the `enum_values` table. -/
structure EnumValueRow where
  enum_id : Int
  name : Str
deriving DecidableEq, Repr

/-- The symbol database. -/
structure DB where
  classes : List ClassRow
  members : List MemberRow
  inheritance : List InheritanceRow
  enum_values : List EnumValueRow
deriving DecidableEq, Repr

/-- Number of `members` rows attached to a class id: the value of
`COUNT(m.id)` under the `LEFT JOIN` + `GROUP BY c.id` of the class-id lookup
query. -/
def memberCount (db : DB) (cid : Int) : Nat :=
  (db.members.filter (fun m => m.class_id = cid)).length

/-- Fold step keeping the first row with the strictly largest member count. -/
def pickMoreMembers (db : DB) (best : Option ClassRow) (c : ClassRow) :
    Option ClassRow :=
  match best with
  | none => some c
  | some b => if memberCount db b.id < memberCount db c.id then some c else some b

/-- The query `SELECT c.id FROM classes c LEFT JOIN members m ON c.id =
m.class_id WHERE LOWER(c.name) = LOWER(?) GROUP BY c.id ORDER BY COUNT(m.id)
DESC LIMIT 1` (used by `fetch_members_recursive`): case-insensitive name
match, then the row with the most members (first in table order on ties). -/
def selectClassId (db : DB) (n : Str) : Option Int :=
  let cands := db.classes.filter (fun c => lowerStr c.name = lowerStr n)
  (cands.foldl (pickMoreMembers db) none).map (fun c => c.id)

/-- `is_known_type` from `completion.rs`: `SELECT 1 FROM classes WHERE
LOWER(name) = LOWER(?) LIMIT 1` on the cleaned name, with the empty-name
short-circuit. -/
def is_known_type (db : DB) (name : Str) : Bool :=
  let cl := extract_clean_type name
  if cl = [] then false
  else db.classes.any (fun c => lowerStr c.name = lowerStr cl)

/-- Is `return_type` one of the non-informative values `'T'`, `'T*'`,
`'void'`?  The SQL `CASE` ranks those 1 and everything else (including NULL,
for which the comparisons are NULL, hence not satisfied) 0. -/
def uninformative : Option Str → Bool
  | some rt => rt = strL "T" ∨ rt = strL "T*" ∨ rt = strL "void"
  | none => false

/-- SQLite `length(return_type)` with NULL propagation. -/
def rtLength : Option Str → Option Nat
  | some rt => some rt.length
  | none => none

/-- Is member row `a` ranked strictly before `b` by `ORDER BY (CASE WHEN
return_type IN ('T','T*','void') THEN 1 ELSE 0 END) ASC, length(return_type)
DESC`?  NULL sorts as the smallest value in SQLite, hence last under DESC. -/
def memberRowBefore (a b : MemberRow) : Bool :=
  if uninformative a.return_type = uninformative b.return_type then
    match rtLength a.return_type, rtLength b.return_type with
    | some x, some y => y < x
    | some _, none => true
    | none, _ => false
  else uninformative a.return_type = false

/-- Fold step keeping the first best-ranked row in table order. -/
def pickMemberRow (best : Option MemberRow) (m : MemberRow) : Option MemberRow :=
  match best with
  | none => some m
  | some b => if memberRowBefore m b then some m else some b

/-- The member-lookup query of `find_member_return_type`: `SELECT
m.return_type FROM members m JOIN classes c ON m.class_id = c.id WHERE c.name
= ? AND m.name = ? ORDER BY (CASE ...) ASC, length(m.return_type) DESC LIMIT
1`.  Name comparison is exact (BINARY collation); the join ranges over every
class row whose name matches. -/
def selectMemberRow (db : DB) (cls mem : Str) : Option MemberRow :=
  let cands := db.members.filter (fun m =>
    m.name = mem ∧ db.classes.any (fun c => c.id = m.class_id ∧ c.name = cls))
  cands.foldl pickMemberRow none

/-- The `return_type` of the selected member row, when the row exists and the
column is non-NULL; `find_member_return_type` returns (the cleaning of) this
and otherwise falls through to the parent classes. -/
def effectiveReturn (db : DB) (cls mem : Str) : Option Str :=
  (selectMemberRow db cls mem).bind (fun m => m.return_type)

/-- The parent query of `find_member_return_type`: `SELECT parent_name FROM
inheritance i JOIN classes c ON i.child_id = c.id WHERE c.name = ?`, in
`inheritance` table order. -/
def parentsOf (db : DB) (cls : Str) : List Str :=
  (db.inheritance.filter (fun i =>
    db.classes.any (fun c => c.id = i.child_id ∧ c.name = cls))).map
    (fun i => i.parent_name)

/-- The parent query of `fetch_members_recursive`: `SELECT parent_name FROM
inheritance WHERE child_id = ?`, in table order. -/
def parentsOfId (db : DB) (cid : Int) : List Str :=
  (db.inheritance.filter (fun i => i.child_id = cid)).map (fun i => i.parent_name)

/-- Does a typedef row carry a usable base: `base_class IS NOT NULL AND
base_class != ''`? -/
def hasBase (c : ClassRow) : Bool :=
  match c.base_class with
  | some b => b ≠ []
  | none => false

/-- The typedef query of `resolve_typedef`: `SELECT base_class FROM classes
WHERE name = ? AND symbol_type = 'typedef' ORDER BY (CASE WHEN base_class IS
NOT NULL AND base_class != '' THEN 0 ELSE 1 END) ASC LIMIT 1`: prefer rows
with a non-empty base, first in table order on ties. -/
def selectTypedefRow (db : DB) (n : Str) : Option ClassRow :=
  let rows := db.classes.filter (fun c =>
    c.name = n ∧ c.symbol_type = strL "typedef")
  match rows.find? hasBase with
  | some r => some r
  | none => rows.head?

/-- One unwinding step of the `for _ in 0..3` loop of `resolve_typedef`:
look the current name up as a typedef, clean its base, stop at a fixed point
or an empty or missing base. -/
def rtStep (db : DB) : Nat → Str → Str
  | 0, cur => cur
  | k + 1, cur =>
    match selectTypedefRow db cur with
    | none => cur
    | some row =>
      match row.base_class with
      | none => cur
      | some base =>
        let cl := extract_clean_type base
        if cl = cur ∨ cl = [] then cur else rtStep db k cl

/-- `resolve_typedef` from `completion.rs`: clean the name, return early for
empty, `T` and `void`, then chase typedef rows for at most 3 iterations. -/
def resolve_typedef (db : DB) (name : Str) : Str :=
  let cur := extract_clean_type name
  if cur = [] ∨ cur = strL "T" ∨ cur = strL "void" then cur
  else rtStep db 3 cur

-- ## Member-return-type search and member assembly
-- `find_member_return_type` and `fetch_members_recursive` both run a
-- worklist loop on a Rust `Vec` used with `push`/`pop`: `pop` removes the
-- *last* element, so the worklist is a LIFO stack.  The embeddings below use
-- a head-popped list; pushing the parents `p1, ..., pn` onto the back of the
-- Rust `Vec` corresponds to prepending their reversal to the head-popped
-- list.  The loops are fuelled; `none` models a run that exceeds its fuel.

/-- The worklist loop of `find_member_return_type` (`completion.rs`):
pop a class; skip it when visited, otherwise mark it visited, return its
cleaned member `return_type` when the member query yields a non-NULL value,
and otherwise push its parents.  Also returns the final visited list. -/
def fmrtLoopV (db : DB) (mem : Str) :
    Nat → List Str → List Str → Option (Option Str × List Str)
  | _, [], vis => some (none, vis)
  | 0, _ :: _, _ => none
  | fuel + 1, cls :: rest, vis =>
    if cls ∈ vis then fmrtLoopV db mem fuel rest vis
    else
      match effectiveReturn db cls mem with
      | some rt => some (some (extract_clean_type rt), cls :: vis)
      | none => fmrtLoopV db mem fuel ((parentsOf db cls).reverse ++ rest) (cls :: vis)

/-- Fuel that provably suffices for the worklist loops on `db`: every name
ever pushed is the start name or one of the at most `inheritance.length`
parent names, and each loop iteration either consumes a stack entry or
freshly visits such a name. -/
def searchFuel (db : DB) : Nat :=
  (db.inheritance.length + 1) * (db.inheritance.length + 2) + 2

/-- `find_member_return_type` from `completion.rs`: clean and
typedef-resolve the class name, then run the worklist search for the member. -/
def find_member_return_type (db : DB) (class_name mem : Str) : Option Str :=
  let start := resolve_typedef db (extract_clean_type class_name)
  match fmrtLoopV db mem (searchFuel db) [start] [] with
  | some (r, _) => r
  | none => none

/-- Run `next` over a list of classes left to right, threading the visited
list and stopping at the first found result: the list part of a recursive
depth-first search. -/
def dfsStep (next : List Str → Str → Option (Option Str × List Str)) :
    List Str → List Str → Option (Option Str × List Str)
  | vis, [] => some (none, vis)
  | vis, cls :: more =>
    match next vis cls with
    | none => none
    | some (some r, vis1) => some (some r, vis1)
    | some (none, vis1) => dfsStep next vis1 more

/-- Recursive depth-first search over the inheritance graph, visiting the
parents of a class in reverse order (most recently pushed first), with a
shared visited list — the traversal `find_member_return_type` actually
performs.  Fuel bounds the recursion depth. -/
def dfsA (db : DB) (mem : Str) :
    Nat → List Str → Str → Option (Option Str × List Str)
  | 0, _, _ => none
  | fuel + 1, vis, cls =>
    if cls ∈ vis then some (none, vis)
    else
      match effectiveReturn db cls mem with
      | some rt => some (some (extract_clean_type rt), cls :: vis)
      | none => dfsStep (dfsA db mem fuel) (cls :: vis) (parentsOf db cls).reverse

/-- The depth-first formulation of the member search: same cleaning,
typedef resolution and member query as `find_member_return_type`, but the
traversal is written as a recursive descent. -/
def findMemberDFS (db : DB) (class_name mem : Str) : Option Str :=
  let start := resolve_typedef db (extract_clean_type class_name)
  match dfsA db mem (searchFuel db) [] start with
  | some (r, _) => r
  | none => none

/-- Breadth-first worklist loop, following claim C1's wording: the worklist
is a FIFO queue (parents are appended at the back and the front is served
first), so classes are queried level by level. -/
def bfsLoop (db : DB) (mem : Str) :
    Nat → List Str → List Str → Option (Option Str)
  | _, [], _ => some none
  | 0, _ :: _, _ => none
  | fuel + 1, cls :: rest, vis =>
    if cls ∈ vis then bfsLoop db mem fuel rest vis
    else
      match effectiveReturn db cls mem with
      | some rt => some (some (extract_clean_type rt))
      | none => bfsLoop db mem fuel (rest ++ parentsOf db cls) (cls :: vis)

/-- The breadth-first member search described by claim C1 (same cleaning,
typedef resolution and member query, but a level-by-level traversal), for
comparison with the implemented `find_member_return_type`. -/
def findMemberBFS (db : DB) (class_name mem : Str) : Option Str :=
  let start := resolve_typedef db (extract_clean_type class_name)
  match bfsLoop db mem (searchFuel db) [start] [] with
  | some r => r
  | none => none

/-- `map_kind` from `completion.rs`: member `type` column to LSP
CompletionItemKind. -/
def map_kind (k : Str) : Int :=
  if k = strL "function" then 2
  else if k = strL "variable" ∨ k = strL "property" then 5
  else if k = strL "enum_item" then 20
  else 1

/-- A completion item as emitted by the resolver.  `documentation` is an
`Option` because the enum-value items of `fetch_members_recursive` omit the
field altogether. -/
structure Item where
  label : Str
  kind : Int
  detail : Str
  documentation : Option Str
  insertText : Str
deriving DecidableEq, Repr

/-- The completion item built from a `members` row by
`fetch_members_recursive`. -/
def memberItem (m : MemberRow) : Item :=
  { label := m.name, kind := map_kind m.mtype, detail := m.return_type.getD [],
    documentation := some (m.detail.getD []), insertText := m.name }

/-- The completion item built from an `enum_values` row by
`fetch_members_recursive`: fixed detail `"enum item"` and no documentation
field. -/
def enumItem (e : EnumValueRow) : Item :=
  { label := e.name, kind := 20, detail := strL "enum item",
    documentation := none, insertText := e.name }

/-- All member items of a class id, in `members` table order. -/
def memberItems (db : DB) (cid : Int) : List Item :=
  (db.members.filter (fun m => m.class_id = cid)).map memberItem

/-- All enum-value items of a class id, in `enum_values` table order. -/
def enumItems (db : DB) (cid : Int) : List Item :=
  (db.enum_values.filter (fun e => e.enum_id = cid)).map enumItem

/-- The worklist loop of `fetch_members_recursive` (`completion.rs`): pop a
name; skip it when visited, otherwise mark it visited, resolve it to a class
id (case-insensitively, preferring the row with the most members), emit that
class's member and enum-value items, and push its parents. -/
def fetchLoop (db : DB) :
    Nat → List Str → List Str → List Item → Option (List Item)
  | _, [], _, acc => some acc
  | 0, _ :: _, _, _ => none
  | fuel + 1, cls :: rest, vis, acc =>
    if cls ∈ vis then fetchLoop db fuel rest vis acc
    else
      match selectClassId db cls with
      | none => fetchLoop db fuel rest (cls :: vis) acc
      | some cid =>
        fetchLoop db fuel ((parentsOfId db cid).reverse ++ rest) (cls :: vis)
          (acc ++ memberItems db cid ++ enumItems db cid)

/-- `fetch_members_recursive` from `completion.rs`, run with provably
sufficient fuel. -/
def fetch_members (db : DB) (class_name : Str) : List Item :=
  (fetchLoop db (searchFuel db) [class_name] [] []).getD []

-- ## Value-text inference
-- `infer_from_value_text` applies three regexes in order, each searched over
-- the whole (trimmed) text with leftmost-match semantics.  In each pattern
-- the character classes of adjacent parts are disjoint, so the greedy
-- quantifiers never need to backtrack and each matcher is deterministic.

/-- Character class `[a-zA-Z0-9_:]` of the template-argument captures. -/
def captChar (c : Char) : Bool := c.isAlphanum ∨ c = '_' ∨ c = ':'

/-- Try the pattern `CreateDefaultSubobject\s*<\s*([a-zA-Z0-9_:]+)` at the
start of `s`; returns the capture. -/
def tryCdsAt (s : Str) : Option Str :=
  if (strL "CreateDefaultSubobject").isPrefixOf s then
    let r1 := (s.drop (strL "CreateDefaultSubobject").length).dropWhile isWsChar
    match r1 with
    | '<' :: r2 =>
      let cap := (r2.dropWhile isWsChar).takeWhile captChar
      if cap = [] then none else some cap
    | _ => none
  else none

/-- Leftmost match of `CreateDefaultSubobject\s*<\s*([a-zA-Z0-9_:]+)`
anywhere in the text (Rust `Regex::captures`). -/
def cdsMatch : Str → Option Str
  | [] => none
  | c :: rest =>
    match tryCdsAt (c :: rest) with
    | some cap => some cap
    | none => cdsMatch rest

/-- Try the pattern `([a-zA-Z0-9_]+)\s*<\s*([a-zA-Z0-9_:]+)` at the start of
`s`; returns both captures. -/
def tryWrapAt (s : Str) : Option (Str × Str) :=
  let f := s.takeWhile isWordChar
  if f = [] then none
  else
    match (s.drop f.length).dropWhile isWsChar with
    | '<' :: r2 =>
      let cap := (r2.dropWhile isWsChar).takeWhile captChar
      if cap = [] then none else some (f, cap)
    | _ => none

/-- Leftmost match of `([a-zA-Z0-9_]+)\s*<\s*([a-zA-Z0-9_:]+)` anywhere in
the text. -/
def wrapMatch : Str → Option (Str × Str)
  | [] => none
  | c :: rest =>
    match tryWrapAt (c :: rest) with
    | some p => some p
    | none => wrapMatch rest

/-- The anchored pattern `^([a-zA-Z0-9_:]+)\s*\(`; returns the capture. -/
def ctorMatch (s : Str) : Option Str :=
  let f := s.takeWhile captChar
  if f = [] then none
  else
    match (s.drop f.length).dropWhile isWsChar with
    | '(' :: _ => some f
    | _ => none

/-- The wrapper names whose inner template argument (rather than the wrapper
itself) names the constructed type, from `infer_from_value_text`. -/
def innerWrappers : List Str :=
  [strL "NewObject", strL "TObjectPtr", strL "TSharedPtr"]

/-- `infer_from_value_text` from `completion.rs`: trim the initializer text,
then try `CreateDefaultSubobject<T` (yielding `clean(T)`), then `W<T`
(yielding `clean(T)` when `W` is `NewObject`/`TObjectPtr`/`TSharedPtr` and
`clean(W)` otherwise), then a leading `T(` (yielding `clean(T)`). -/
def infer_from_value_text (text : Str) : Option Str :=
  let t := trim text
  match cdsMatch t with
  | some cap => some (extract_clean_type cap)
  | none =>
    match wrapMatch t with
    | some (f, inner) =>
      if f ∈ innerWrappers then some (extract_clean_type inner)
      else some (extract_clean_type f)
    | none =>
      match ctorMatch t with
      | some f => some (extract_clean_type f)
      | none => none

-- ## Assignment / initializer scan
-- `infer_from_assignment` runs a tree-sitter query producing, in match
-- order, `(declarator, value)` pairs from declaration-with-initializer and
-- assignment-expression shapes.  The query result is modelled as the list of
-- those pairs: for each one, whether the declarator subtree contains the
-- target identifier (`find_identifier_in_decl`), the declarator's start row,
-- and the value node's text.

/-- One `(declarator, value)` match of the assignment/initializer query. -/
structure AssignMatch where
  declHasTarget : Bool
  declStartRow : Nat
  valueText : Str
deriving DecidableEq, Repr

/-- `infer_from_assignment` from `completion.rs`: walk the matches in query
order and, at the first one whose declarator contains the target and starts
at or before the cursor row, return the result of value-text inference on its
value text (even when that result is `none`). -/
def infer_from_assignment (ms : List AssignMatch) (cursorRow : Nat) :
    Option Str :=
  match ms with
  | [] => none
  | m :: rest =>
    if m.declHasTarget ∧ m.declStartRow ≤ cursorRow then
      infer_from_value_text m.valueText
    else infer_from_assignment rest cursorRow

/-- The selection rule claim C3 describes: among the matches whose declarator
contains the target and whose start row is at most the cursor row, feed the
one with the greatest start row to value-text inference. -/
def inferFromAssignmentLatest (ms : List AssignMatch) (cursorRow : Nat) :
    Option Str :=
  let eligible := ms.filter (fun m => m.declHasTarget ∧ m.declStartRow ≤ cursorRow)
  match eligible.foldl
      (fun best m =>
        match best with
        | none => some m
        | some b => if b.declStartRow < m.declStartRow then some m else some b)
      none with
  | some m => infer_from_value_text m.valueText
  | none => none

/-- The shapes of claim C8's table, each as a separate matcher: shape 1,
`CreateDefaultSubobject< T ...`, yields `clean(T)`. -/
def shapeCds (t : Str) : Option Str := (cdsMatch t).map extract_clean_type

/-- Shape 2: `W< T ...` with `W` in `{NewObject, TObjectPtr, TSharedPtr}`
yields `clean(T)`. -/
def shapeKnownWrap (t : Str) : Option Str :=
  match wrapMatch t with
  | some (f, inner) =>
    if f ∈ innerWrappers then some (extract_clean_type inner) else none
  | none => none

/-- Shape 3: any other `W< T ...` yields `clean(W)`. -/
def shapeOtherWrap (t : Str) : Option Str :=
  match wrapMatch t with
  | some (f, _) => if f ∈ innerWrappers then none else some (extract_clean_type f)
  | none => none

/-- Shape 4: a leading `T(` yields `clean(T)`. -/
def shapeCtor (t : Str) : Option Str := (ctorMatch t).map extract_clean_type

/-- Value-text inference as claim C8 words it: trim, then apply the four
shapes in order, first match winning; no match infers no type. -/
def specValueInference (text : Str) : Option Str :=
  [shapeCds, shapeKnownWrap, shapeOtherWrap, shapeCtor].findSome?
    (fun shape => shape (trim text))

-- ## Parse-tree model and the context classifier
-- tree-sitter nodes are modelled as rose trees carrying their kind, their
-- source text, and the field name under which they sit in their parent.  The
-- cursor node is a zipper: the focused subtree plus the chain of crumbs
-- recording, for each ancestor, the siblings to the left (nearest first),
-- the ancestor's own kind/text/field, and the siblings to the right.

/-- A tree-sitter node: kind, source text, field name in the parent,
children in document order. -/
inductive RTree where
  | mk (kind : Str) (text : Str) (field : Option Str) (children : List RTree)

/-- The node kind. -/
def RTree.kind : RTree → Str
  | .mk k _ _ _ => k

/-- The node's source text (`get_node_text` in `completion.rs`). -/
def RTree.text : RTree → Str
  | .mk _ t _ _ => t

/-- The field name under which the node sits in its parent. -/
def RTree.field : RTree → Option Str
  | .mk _ _ f _ => f

/-- The node's children in document order. -/
def RTree.children : RTree → List RTree
  | .mk _ _ _ cs => cs

/-- One step of the path from the cursor node to the root: the left siblings
(nearest first), the parent's kind, text and field, and the right siblings. -/
structure Crumb where
  left : List RTree
  pkind : Str
  ptext : Str
  pfield : Option Str
  right : List RTree

/-- A cursor position in the tree: the focused node and the crumbs up to the
root. -/
structure Zip where
  focus : RTree
  path : List Crumb

/-- Reassemble the parent node from a crumb and the focused child. -/
def rebuild (cr : Crumb) (t : RTree) : RTree :=
  RTree.mk cr.pkind cr.ptext cr.pfield (cr.left.reverse ++ t :: cr.right)

/-- The chain of nodes from the cursor node up to the root (the cursor node
itself first), as walked by `process_completion`. -/
def nodeChain : RTree → List Crumb → List RTree
  | t, [] => [t]
  | t, cr :: rest => t :: nodeChain (rebuild cr t) rest

/-- The sibling kinds skipped by `get_prev_meaningful_sibling`. -/
def triviaKind (k : Str) : Bool :=
  k = strL "comment" ∨ k = strL " " ∨ k = strL "\n" ∨ k = strL "\r"

/-- `get_prev_meaningful_sibling` from `completion.rs`, given the left
siblings nearest first: the first one that is not whitespace or a comment. -/
def prevMeaningful (left : List RTree) : Option RTree :=
  left.find? (fun t => !triviaKind t.kind)

/-- Pair every element of a child list with its left siblings (nearest
first); `acc` carries the already-passed children reversed. -/
def withLefts (acc : List RTree) : List RTree → List (RTree × List RTree)
  | [] => []
  | c :: rest => (c, acc) :: withLefts (c :: acc) rest

/-- The ERROR-recovery scan of `process_completion`: walk the ERROR node's
children in reverse document order; at each child of kind `.`, `->` or `::`
take its previous meaningful sibling, and keep scanning when there is none. -/
def errorScan (children : List RTree) : Option RTree :=
  ((withLefts [] children).reverse).findSome? (fun p =>
    if p.1.kind = strL "." ∨ p.1.kind = strL "->" ∨ p.1.kind = strL "::" then
      prevMeaningful p.2
    else none)

/-- `child_by_field_name`: the first child carrying the given field name. -/
def childByField (t : RTree) (name : Str) : Option RTree :=
  t.children.find? (fun c => c.field = some name)

mutual

/-- `find_qualified_identifier` from `completion.rs`: the node itself when it
is a `qualified_identifier`, else the first hit in a pre-order scan of the
children. -/
def findQualId : RTree → Option RTree
  | .mk k tx fl cs =>
    if k = strL "qualified_identifier" then some (.mk k tx fl cs)
    else findQualIdL cs

/-- Scan a child list in order for a `qualified_identifier` descendant. -/
def findQualIdL : List RTree → Option RTree
  | [] => none
  | t :: ts =>
    match findQualId t with
    | some r => some r
    | none => findQualIdL ts

end

/-- Drop every trailing occurrence of `::` (Rust `trim_end_matches("::")`),
working on the reversed string. -/
def trimEndColonsGo : Str → Str
  | ':' :: ':' :: rest => trimEndColonsGo rest
  | s => s

/-- Rust `str::trim_end_matches("::")`. -/
def trimEndColons (s : Str) : Str := (trimEndColonsGo s.reverse).reverse

/-- The class-like node kinds recognised by `get_enclosing_class_name`. -/
def classKinds : List Str :=
  [strL "class_specifier", strL "struct_specifier",
   strL "unreal_class_declaration", strL "unreal_struct_declaration"]

/-- Does this single node name an enclosing class (`get_enclosing_class_name`
body): a class-like node via its `name` field, or a `function_definition`
via the scope of the qualified identifier inside its declarator?  `none`
means the walk continues to the parent. -/
def enclosingHere (t : RTree) : Option Str :=
  if t.kind ∈ classKinds then
    (childByField t (strL "name")).map (fun nm => trim nm.text)
  else if t.kind = strL "function_definition" then
    ((childByField t (strL "declarator")).bind findQualId).bind (fun q =>
      (childByField q (strL "scope")).map (fun sc =>
        extract_clean_type (trimEndColons (trim sc.text))))
  else none

/-- `get_enclosing_class_name` from `completion.rs`: walk from the node
through its ancestors, returning the first enclosing class name found. -/
def enclosingClassName : RTree → List Crumb → Option Str
  | t, path =>
    match enclosingHere t with
    | some r => some r
    | none =>
      match path with
      | [] => none
      | cr :: rest => enclosingClassName (rebuild cr t) rest

/-- What the classifier decides to do; the database-dependent continuation
(`resolve_node_and_fetch_members`, `resolve_static_members`, fetching the
enclosing class's members) is applied to this decision afterwards.  Both
`implicitThis` (whose member fetch may come back empty) and `empty` produce
an empty completion list when the database offers nothing. -/
inductive CAction where
  | resolveMember (target : RTree)
  | staticMembers (scopeText : Str)
  | implicitThis (cls : Str)
  | empty

/-- One node of the ancestor walk of `process_completion` (step 2): `some r`
stops the walk with result `r` (a `field_expression` resolves its `argument`
or stops empty, a `qualified_identifier` statically resolves its `scope`
text or stops empty, an `ERROR` node with a trailing operator resolves that
operator's previous meaningful sibling); `none` continues to the parent. -/
def walkUpHere (t : RTree) : Option (Option CAction) :=
  if t.kind = strL "field_expression" then
    some ((childByField t (strL "argument")).map CAction.resolveMember)
  else if t.kind = strL "qualified_identifier" then
    some ((childByField t (strL "scope")).map (fun sc =>
      CAction.staticMembers sc.text))
  else if t.kind = strL "ERROR" then
    match errorScan t.children with
    | some prev => some (some (CAction.resolveMember prev))
    | none => none
  else none

/-- The ancestor walk of `process_completion` (step 2), from the cursor node
upward. -/
def walkUp : RTree → List Crumb → Option CAction
  | t, [] =>
    match walkUpHere t with
    | some r => r
    | none => none
  | t, cr :: rest =>
    match walkUpHere t with
    | some r => r
    | none => walkUp (rebuild cr t) rest

/-- The identifier-like kinds that enable the implicit-`this` fallback. -/
def identKinds : List Str :=
  [strL "identifier", strL "type_identifier", strL "field_identifier", strL "this"]

/-- The context classifier of `process_completion` (`completion.rs`):
step 1 handles a cursor sitting on `.`, `->`, `::` or `:` (a lone `:` being
promoted to its parent when that parent is a `::` node) by resolving the
previous meaningful sibling of the operator; step 2 walks the ancestors; step
3 is the implicit-`this` fallback for identifier-like cursor nodes. -/
def classify (z : Zip) : CAction :=
  let nk := z.focus.kind
  let branch1 : Option CAction :=
    if nk = strL "." ∨ nk = strL "->" ∨ nk = strL "::" ∨ nk = strL ":" then
      let opLefts : List RTree :=
        if nk = strL ":" then
          match z.path with
          | cr :: rest =>
            if cr.pkind = strL "::" then
              match rest with
              | cr2 :: _ => cr2.left
              | [] => []
            else cr.left
          | [] => []
        else
          match z.path with
          | cr :: _ => cr.left
          | [] => []
      (prevMeaningful opLefts).map CAction.resolveMember
    else none
  match branch1 with
  | some a => a
  | none =>
    match walkUp z.focus z.path with
    | some a => a
    | none =>
      if z.focus.kind ∈ identKinds then
        match enclosingClassName z.focus z.path with
        | some cls => CAction.implicitThis cls
        | none => CAction.empty
      else CAction.empty



-- ## Supporting lemmas

/-- Dropping a prefix never lengthens a list. -/
theorem dropWhile_length_le (p : Char → Bool) (l : List Char) :
    (l.dropWhile p).length ≤ l.length := by
  induction l with
  | nil => simp [List.dropWhile]
  | cons x xs ih =>
    by_cases h : p x
    · simp [List.dropWhile, h]; omega
    · simp [List.dropWhile, h]

/-- `splitFirst` decomposes its input around the found character. -/
theorem splitFirst_sound (c : Char) :
    ∀ s a b, splitFirst c s = some (a, b) → s = a ++ c :: b := by
  intro s
  induction s with
  | nil => intro a b h; simp [splitFirst] at h
  | cons x xs ih =>
    intro a b h
    by_cases hx : x = c
    · subst hx
      simp [splitFirst] at h
      obtain ⟨rfl, rfl⟩ := h
      simp
    · simp [splitFirst, hx] at h
      obtain ⟨a1, ha1, rfl⟩ := h
      simp [ih a1 b ha1]

/-- `splitLast` decomposes its input around the found character. -/
theorem splitLast_sound (c : Char) (s a b : Str)
    (h : splitLast c s = some (a, b)) : s = a ++ c :: b := by
  unfold splitLast at h
  cases hsr : splitFirst c s.reverse with
  | none => rw [hsr] at h; simp at h
  | some r =>
    obtain ⟨r1, r2⟩ := r
    rw [hsr] at h
    simp only [Option.map_some', Option.some.injEq, Prod.mk.injEq] at h
    obtain ⟨rfl, rfl⟩ := h
    have hr := splitFirst_sound c s.reverse r1 r2 hsr
    have h2 : s.reverse.reverse = (r1 ++ c :: r2).reverse := by rw [hr]
    simpa [List.reverse_append] using h2

/-- Trimming never lengthens a string. -/
theorem trim_length_le (s : Str) : (trim s).length ≤ s.length := by
  have h1 : (trimLeft s).length ≤ s.length := dropWhile_length_le _ _
  have h2 : (trimRight (trimLeft s)).length ≤ (trimLeft s).length := by
    have h3 := dropWhile_length_le isWsChar (trimLeft s).reverse
    simp only [trimRight, List.length_reverse]
    simpa using h3
  exact le_trans h2 h1

/-- `cleanGo` is fuel-insensitive once the fuel reaches the string length. -/
theorem cleanGo_fuel :
    ∀ f1 : Nat, ∀ f2 : Nat, ∀ s : Str, s.length ≤ f1 → s.length ≤ f2 →
      cleanGo f1 s = cleanGo f2 s := by
  intro f1
  induction f1 with
  | zero =>
    intro f2 s h1 _
    have hs : s = [] := List.eq_nil_of_length_eq_zero (Nat.le_zero.mp h1)
    subst hs
    cases f2 with
    | zero => rfl
    | succ g => simp [cleanGo, trim, trimLeft, trimRight, splitFirst]
  | succ g ih =>
    intro f2 s h1 h2
    cases f2 with
    | zero =>
      have hs : s = [] := List.eq_nil_of_length_eq_zero (Nat.le_zero.mp h2)
      subst hs
      simp [cleanGo, trim, trimLeft, trimRight, splitFirst]
    | succ h =>
      cases hsf : splitFirst '<' (trim s) with
      | none => simp only [cleanGo, hsf]
      | some p =>
        obtain ⟨w, rest⟩ := p
        simp only [cleanGo, hsf]
        cases hsl : splitLast '>' rest with
        | none => rfl
        | some q =>
          obtain ⟨inner, tail⟩ := q
          show (if trim w ∈ wrapperNames then cleanGo g inner
              else finishClean (trim w))
            = (if trim w ∈ wrapperNames then cleanGo h inner
              else finishClean (trim w))
          by_cases hw : trim w ∈ wrapperNames
          · rw [if_pos hw, if_pos hw]
            have hd1 := splitFirst_sound '<' (trim s) w rest hsf
            have hd2 := splitLast_sound '>' rest inner tail hsl
            have htr := trim_length_le s
            rw [hd1, hd2] at htr
            simp only [List.length_append, List.length_cons] at htr
            exact ih h inner (by omega) (by omega)
          · rw [if_neg hw, if_neg hw]

/-- `trimLeft` keeps a string starting with a non-whitespace character. -/
theorem trimLeft_cons_of_not_ws (c : Char) (s : Str) (h : isWsChar c = false) :
    trimLeft (c :: s) = c :: s := by
  simp [trimLeft, List.dropWhile_cons, h]

/-- `trimRight` keeps a string ending with a non-whitespace character. -/
theorem trimRight_append_of_not_ws (s : Str) (c : Char) (h : isWsChar c = false) :
    trimRight (s ++ [c]) = s ++ [c] := by
  simp [trimRight, List.dropWhile_cons, h]

/-- A wrapper application `W<T>`, with `W` starting with the letter `T` of
the Unreal wrapper names, survives trimming. -/
theorem trim_wrapped (W' T : Str) :
    trim ('T' :: (W' ++ '<' :: (T ++ ['>']))) =
      'T' :: (W' ++ '<' :: (T ++ ['>'])) := by
  have hshape : 'T' :: (W' ++ '<' :: (T ++ ['>'])) =
      ('T' :: (W' ++ '<' :: T)) ++ ['>'] := by simp
  rw [trim, trimLeft_cons_of_not_ws 'T' _ (by decide)]
  rw [hshape, trimRight_append_of_not_ws _ '>' (by decide)]

/-- `splitFirst` splits exactly at an explicitly exhibited first occurrence. -/
theorem splitFirst_prefix (c : Char) :
    ∀ w r : Str, c ∉ w → splitFirst c (w ++ c :: r) = some (w, r) := by
  intro w
  induction w with
  | nil => intro r _; simp [splitFirst]
  | cons x xs ih =>
    intro r hmem
    have hx : ¬ x = c := by
      intro hxc; exact hmem (by simp [hxc])
    simp [splitFirst, hx,
      ih r (by intro hc; exact hmem (List.mem_cons_of_mem _ hc))]

/-- `splitLast` splits at an explicitly exhibited final occurrence. -/
theorem splitLast_final (c : Char) (T : Str) :
    splitLast c (T ++ [c]) = some (T, []) := by
  simp [splitLast, List.reverse_append, splitFirst]

/-- Core of the wrapper-peel property, for a wrapper starting with `T`. -/
theorem clean_peel_core (W' T : Str) (f : Nat)
    (hmem : ('T' :: W') ∈ wrapperNames) (hlt : '<' ∉ ('T' :: W'))
    (htrimW : trim ('T' :: W') = 'T' :: W')
    (hT : extract_clean_type T = T)
    (hf : ('T' :: (W' ++ '<' :: (T ++ ['>']))).length ≤ f) :
    cleanGo f ('T' :: (W' ++ '<' :: (T ++ ['>']))) = T := by
  cases f with
  | zero => simp at hf
  | succ g =>
    have hsplit1 : splitFirst '<' ('T' :: (W' ++ '<' :: (T ++ ['>'])))
        = some ('T' :: W', T ++ ['>']) := by
      have h1 := splitFirst_prefix '<' ('T' :: W') (T ++ ['>']) hlt
      simpa using h1
    simp only [cleanGo, trim_wrapped, hsplit1, splitLast_final, htrimW]
    rw [if_pos hmem]
    have hTlen : T.length ≤ g := by
      simp [List.length_append] at hf
      omega
    calc cleanGo g T = cleanGo T.length T :=
          cleanGo_fuel g T.length T hTlen (le_refl _)
    _ = T := hT

/-- C2: for every wrapper `W` in `{TObjectPtr, TSharedPtr, TUniquePtr,
TWeakObjectPtr, TSubclassOf, TSoftObjectPtr, TSoftClassPtr, TEnumAsByte}` and
every class name `T` (modelled as any string the cleaner leaves unchanged,
which holds for every bare identifier), `clean("W<T>") = T`: the cleaner
peels the wrapper and recurses on the inner template argument. -/
theorem clean_peels_wrapper_to_inner (W T : Str) (hW : W ∈ wrapperNames)
    (hT : extract_clean_type T = T) :
    extract_clean_type (W ++ '<' :: (T ++ ['>'])) = T := by
  simp only [wrapperNames, List.mem_cons, List.not_mem_nil, or_false] at hW
  rcases hW with rfl | rfl | rfl | rfl | rfl | rfl | rfl | rfl
  all_goals
    exact clean_peel_core _ T _ (by decide) (by decide) (by decide) hT (le_refl _)

/-- Witness for C2 at the concrete wrapper `TSubclassOf` and class `AActor`. -/
theorem clean_peels_wrapper_to_inner_witness :
    extract_clean_type (strL "TSubclassOf<AActor>") = strL "AActor" :=
  clean_peels_wrapper_to_inner (strL "TSubclassOf") (strL "AActor")
    (by decide) (by decide)

/-- The invariant claimed for every emitted completion item: an LSP kind in
`{1, 2, 5, 20}` and `label = insertText`. -/
def itemOk (it : Item) : Bool :=
  (it.kind == 1 || it.kind == 2 || it.kind == 5 || it.kind == 20) &&
    (it.label == it.insertText)

/-- `map_kind` only produces the four advertised kind codes. -/
theorem map_kind_cases (k : Str) :
    map_kind k = 1 ∨ map_kind k = 2 ∨ map_kind k = 5 ∨ map_kind k = 20 := by
  unfold map_kind
  repeat' split
  all_goals simp

/-- Member items satisfy the item invariant. -/
theorem memberItem_ok (m : MemberRow) : itemOk (memberItem m) = true := by
  have h := map_kind_cases m.mtype
  simp only [itemOk, memberItem]
  rcases h with h | h | h | h <;> simp [h]

/-- Enum-value items satisfy the item invariant. -/
theorem enumItem_ok (e : EnumValueRow) : itemOk (enumItem e) = true := by
  simp [itemOk, enumItem]

/-- Every item the member-assembly loop can return satisfies the invariant,
provided the accumulator does. -/
theorem fetchLoop_all_ok (db : DB) :
    ∀ fuel stack vis acc res, acc.all itemOk = true →
      fetchLoop db fuel stack vis acc = some res → res.all itemOk = true := by
  intro fuel
  induction fuel with
  | zero =>
    intro stack vis acc res hacc h
    cases stack with
    | nil =>
      simp only [fetchLoop, Option.some.injEq] at h
      subst h; exact hacc
    | cons cls rest => simp [fetchLoop] at h
  | succ f ih =>
    intro stack vis acc res hacc h
    cases stack with
    | nil =>
      simp only [fetchLoop, Option.some.injEq] at h
      subst h; exact hacc
    | cons cls rest =>
      simp only [fetchLoop] at h
      by_cases hv : cls ∈ vis
      · rw [if_pos hv] at h
        exact ih rest vis acc res hacc h
      · rw [if_neg hv] at h
        cases hsel : selectClassId db cls with
        | none =>
          rw [hsel] at h
          exact ih rest (cls :: vis) acc res hacc h
        | some cid =>
          rw [hsel] at h
          refine ih _ (cls :: vis) _ res ?_ h
          simp only [List.all_append, hacc, Bool.true_and, Bool.and_eq_true]
          constructor
          · simp only [memberItems, List.all_eq_true]
            intro it hit
            obtain ⟨m, _, rfl⟩ := List.mem_map.mp hit
            exact memberItem_ok m
          · simp only [enumItems, List.all_eq_true]
            intro it hit
            obtain ⟨e, _, rfl⟩ := List.mem_map.mp hit
            exact enumItem_ok e

/-- C5: for every database and class name, every item in the array
`fetch_members` returns has `kind ∈ {1, 2, 5, 20}` and `label = insertText`
(every non-empty response of the resolver is such an array). -/
theorem items_kind_and_label_invariant (db : DB) (c : Str) :
    (fetch_members db c).all itemOk = true := by
  unfold fetch_members
  cases h : fetchLoop db (searchFuel db) [c] [] [] with
  | none => simp
  | some res => simpa using fetchLoop_all_ok db _ _ _ _ _ (by simp) h

/-- Every item the member-assembly loop can return comes from the
accumulator, from a `members` row, or from an `enum_values` row. -/
theorem fetchLoop_items_from_rows (db : DB) :
    ∀ fuel stack vis acc res, fetchLoop db fuel stack vis acc = some res →
      ∀ it ∈ res, it ∈ acc ∨ (∃ m ∈ db.members, it = memberItem m) ∨
        (∃ e ∈ db.enum_values, it = enumItem e) := by
  intro fuel
  induction fuel with
  | zero =>
    intro stack vis acc res h it hit
    cases stack with
    | nil =>
      simp only [fetchLoop, Option.some.injEq] at h
      subst h; exact Or.inl hit
    | cons cls rest => simp [fetchLoop] at h
  | succ f ih =>
    intro stack vis acc res h it hit
    cases stack with
    | nil =>
      simp only [fetchLoop, Option.some.injEq] at h
      subst h; exact Or.inl hit
    | cons cls rest =>
      simp only [fetchLoop] at h
      by_cases hv : cls ∈ vis
      · rw [if_pos hv] at h
        exact ih rest vis acc res h it hit
      · rw [if_neg hv] at h
        cases hsel : selectClassId db cls with
        | none =>
          rw [hsel] at h
          exact ih rest (cls :: vis) acc res h it hit
        | some cid =>
          rw [hsel] at h
          rcases ih _ (cls :: vis) _ res h it hit with hin | hrow
          · rcases List.mem_append.mp hin with hin2 | hin2
            · rcases List.mem_append.mp hin2 with hin3 | hin3
              · exact Or.inl hin3
              · refine Or.inr (Or.inl ?_)
                obtain ⟨m, hm, rfl⟩ := List.mem_map.mp hin3
                exact ⟨m, List.mem_of_mem_filter hm, rfl⟩
            · refine Or.inr (Or.inr ?_)
              obtain ⟨e, he, rfl⟩ := List.mem_map.mp hin2
              exact ⟨e, List.mem_of_mem_filter he, rfl⟩
          · exact Or.inr hrow

/-- C9 (amended): every item `fetch_members` returns that stems from a
`members` row has `detail` equal to the row's `return_type` (empty when
NULL) and `documentation` equal to the row's `detail` column (empty when
NULL); every item stemming from an `enum_values` row instead carries the
fixed detail string `"enum item"` and no documentation field at all. -/
theorem item_fields_by_row_kind (db : DB) (c : Str) :
    ∀ it ∈ fetch_members db c,
      (∃ m ∈ db.members, it.label = m.name ∧ it.detail = m.return_type.getD []
        ∧ it.documentation = some (m.detail.getD []) ∧ it.insertText = m.name)
      ∨ (∃ e ∈ db.enum_values, it.label = e.name ∧ it.detail = strL "enum item"
        ∧ it.documentation = none ∧ it.insertText = e.name) := by
  intro it hit
  unfold fetch_members at hit
  cases h : fetchLoop db (searchFuel db) [c] [] [] with
  | none => rw [h] at hit; simp at hit
  | some res =>
    rw [h] at hit
    simp only [Option.getD_some] at hit
    rcases fetchLoop_items_from_rows db _ _ _ _ _ h it hit with hin | hm | he
    · simp at hin
    · obtain ⟨m, hm, rfl⟩ := hm
      exact Or.inl ⟨m, hm, rfl, rfl, rfl, rfl⟩
    · obtain ⟨e, he, rfl⟩ := he
      exact Or.inr ⟨e, he, rfl, rfl, rfl, rfl⟩

/-- Database for the C9 counterexample: one enum class `E` with a single
enum value `A` and no member rows. -/
def dbEnumOnly : DB :=
  { classes := [⟨0, strL "E", strL "enum", none⟩], members := [],
    inheritance := [], enum_values := [⟨0, strL "A"⟩] }

/-- Counterexample to C9 as stated: the resolver emits an enum-value item
whose `documentation` field is absent (not an empty string) and whose
`detail` is the fixed string `"enum item"` rather than a declared type or an
empty string. -/
theorem enum_item_fields_counterexample :
    ∃ it ∈ fetch_members dbEnumOnly (strL "E"),
      it.documentation = none ∧ it.detail = strL "enum item" ∧ it.detail ≠ [] := by
  decide

/-- Database for the C9 witness: one class with one fully populated member. -/
def dbOneMember : DB :=
  { classes := [⟨0, strL "C", strL "class", none⟩],
    members := [⟨0, strL "m", strL "variable", some (strL "int"),
      some (strL "doc")⟩],
    inheritance := [], enum_values := [] }

/-- Witness for C9 (amended) at a concrete member item. -/
theorem item_fields_by_row_kind_witness :
    (∃ m ∈ dbOneMember.members,
      (memberItem ⟨0, strL "m", strL "variable", some (strL "int"),
        some (strL "doc")⟩).label = m.name ∧
      (memberItem ⟨0, strL "m", strL "variable", some (strL "int"),
        some (strL "doc")⟩).detail = m.return_type.getD [] ∧
      (memberItem ⟨0, strL "m", strL "variable", some (strL "int"),
        some (strL "doc")⟩).documentation = some (m.detail.getD []) ∧
      (memberItem ⟨0, strL "m", strL "variable", some (strL "int"),
        some (strL "doc")⟩).insertText = m.name)
    ∨ (∃ e ∈ dbOneMember.enum_values,
      (memberItem ⟨0, strL "m", strL "variable", some (strL "int"),
        some (strL "doc")⟩).label = e.name ∧
      (memberItem ⟨0, strL "m", strL "variable", some (strL "int"),
        some (strL "doc")⟩).detail = strL "enum item" ∧
      (memberItem ⟨0, strL "m", strL "variable", some (strL "int"),
        some (strL "doc")⟩).documentation = none ∧
      (memberItem ⟨0, strL "m", strL "variable", some (strL "int"),
        some (strL "doc")⟩).insertText = e.name) :=
  item_fields_by_row_kind dbOneMember (strL "C")
    (memberItem ⟨0, strL "m", strL "variable", some (strL "int"),
      some (strL "doc")⟩) (by decide)

/-- A fold that at each step keeps either the accumulator or the new element
only ever produces an accumulator value or a list element. -/
theorem foldl_pick_mem {α : Type} (f : Option α → α → Option α)
    (hf : ∀ acc x, f acc x = acc ∨ f acc x = some x) :
    ∀ l : List α, ∀ acc c, l.foldl f acc = some c → acc = some c ∨ c ∈ l := by
  intro l
  induction l with
  | nil => intro acc c h; exact Or.inl h
  | cons x xs ih =>
    intro acc c h
    rcases ih (f acc x) c h with h2 | h2
    · rcases hf acc x with h3 | h3
      · exact Or.inl (h3 ▸ h2)
      · rw [h3] at h2
        injection h2 with h4
        exact Or.inr (by simp [h4])
    · exact Or.inr (List.mem_cons_of_mem _ h2)

/-- The class-row fold keeps either its accumulator or the new row. -/
theorem pickMoreMembers_cases (db : DB) (acc : Option ClassRow) (x : ClassRow) :
    pickMoreMembers db acc x = acc ∨ pickMoreMembers db acc x = some x := by
  unfold pickMoreMembers
  cases acc with
  | none => exact Or.inr rfl
  | some b =>
    by_cases h : memberCount db b.id < memberCount db x.id
    · simp [h]
    · simp [h]

/-- The class-row fold returns a row whose member count dominates both the
accumulator and every list element. -/
theorem pickMoreMembers_max (db : DB) :
    ∀ l : List ClassRow, ∀ acc c, l.foldl (pickMoreMembers db) acc = some c →
      (∀ b, acc = some b → memberCount db b.id ≤ memberCount db c.id) ∧
      (∀ x ∈ l, memberCount db x.id ≤ memberCount db c.id) := by
  intro l
  induction l with
  | nil =>
    intro acc c h
    refine ⟨?_, by simp⟩
    intro b hb
    rw [hb] at h
    injection h with h2
    rw [h2]
  | cons x xs ih =>
    intro acc c h
    obtain ⟨ihacc, ihlist⟩ := ih (pickMoreMembers db acc x) c h
    have hx : memberCount db x.id ≤ memberCount db c.id := by
      unfold pickMoreMembers at ihacc
      cases acc with
      | none => exact ihacc x rfl
      | some b =>
        by_cases hlt : memberCount db b.id < memberCount db x.id
        · exact ihacc x (by simp [hlt])
        · exact le_trans (Nat.le_of_not_lt hlt) (ihacc b (by simp [hlt]))
    refine ⟨?_, ?_⟩
    · intro b hb
      subst hb
      unfold pickMoreMembers at ihacc
      by_cases hlt : memberCount db b.id < memberCount db x.id
      · exact le_trans (Nat.le_of_lt hlt) hx
      · exact ihacc b (by simp [hlt])
    · intro y hy
      rcases List.mem_cons.mp hy with rfl | hy2
      · exact hx
      · exact ihlist y hy2

/-- The member-row fold keeps either its accumulator or the new row. -/
theorem pickMemberRow_cases (acc : Option MemberRow) (x : MemberRow) :
    pickMemberRow acc x = acc ∨ pickMemberRow acc x = some x := by
  unfold pickMemberRow
  cases acc with
  | none => exact Or.inr rfl
  | some b =>
    by_cases h : memberRowBefore x b = true
    · simp [h]
    · simp [h]

/-- C4 (amended): class-name lookup during member assembly
(`selectClassId`, backing `fetch_members_recursive` and `is_known_type`)
compares names case-insensitively and among the matching rows returns one
with the most members — with no exact-case preference — while the member
lookup of `find_member_return_type` (`effectiveReturn`) matches class names
exactly, i.e. case-sensitively. -/
theorem class_lookup_case_rules (db : DB) (n cls mem : Str) :
    (∀ cid, selectClassId db n = some cid →
      ∃ c ∈ db.classes, c.id = cid ∧ lowerStr c.name = lowerStr n ∧
        ∀ c2 ∈ db.classes, lowerStr c2.name = lowerStr n →
          memberCount db c2.id ≤ memberCount db c.id) ∧
    (∀ rt, effectiveReturn db cls mem = some rt →
      ∃ c ∈ db.classes, ∃ m ∈ db.members,
        c.name = cls ∧ m.name = mem ∧ m.class_id = c.id ∧
          m.return_type = some rt) := by
  constructor
  · intro cid h
    unfold selectClassId at h
    replace h : Option.map (fun c => c.id)
        ((db.classes.filter (fun c => lowerStr c.name = lowerStr n)).foldl
          (pickMoreMembers db) none) = some cid := h
    cases hsel : (db.classes.filter
        (fun c => lowerStr c.name = lowerStr n)).foldl (pickMoreMembers db) none with
    | none => rw [hsel] at h; simp at h
    | some c =>
      rw [hsel] at h
      simp only [Option.map_some', Option.some.injEq] at h
      have hmem := foldl_pick_mem (pickMoreMembers db) (pickMoreMembers_cases db)
        _ none c hsel
      rcases hmem with h2 | h2
      · simp at h2
      · have hfil := List.mem_filter.mp h2
        have hmax := (pickMoreMembers_max db _ none c hsel).2
        refine ⟨c, hfil.1, h ▸ rfl, by simpa using hfil.2, ?_⟩
        intro c2 hc2 hc2n
        exact hmax c2 (List.mem_filter.mpr ⟨hc2, by simpa using hc2n⟩)
  · intro rt h
    unfold effectiveReturn selectMemberRow at h
    replace h : ((db.members.filter (fun m => m.name = mem ∧
        db.classes.any (fun c => c.id = m.class_id ∧ c.name = cls))).foldl
          pickMemberRow none).bind (fun m => m.return_type) = some rt := h
    cases hsel : (db.members.filter (fun m => m.name = mem ∧
        db.classes.any (fun c => c.id = m.class_id ∧ c.name = cls))).foldl
        pickMemberRow none with
    | none => rw [hsel] at h; simp at h
    | some mrow =>
      rw [hsel] at h
      simp only [Option.some_bind] at h
      have hmem := foldl_pick_mem pickMemberRow pickMemberRow_cases _ none mrow hsel
      rcases hmem with h2 | h2
      · simp at h2
      · have hfil := List.mem_filter.mp h2
        have hprops := hfil.2
        simp only [decide_eq_true_eq, Bool.and_eq_true, List.any_eq_true] at hprops
        obtain ⟨hname, c, hc, hcid, hcname⟩ := hprops
        exact ⟨c, hc, mrow, hfil.1, by simpa using hcname,
          by simpa using hname, by simpa using hcid.symm, h⟩

/-- Database for the C4 counterexample, exact-case half: `Foo` with one
member and `FOO` with two members. -/
def dbTwoCase : DB :=
  { classes := [⟨10, strL "Foo", strL "class", none⟩,
                ⟨11, strL "FOO", strL "class", none⟩],
    members := [⟨10, strL "a", strL "variable", none, none⟩,
                ⟨11, strL "b", strL "variable", none, none⟩,
                ⟨11, strL "c", strL "variable", none, none⟩],
    inheritance := [], enum_values := [] }

/-- Database for the C4 counterexample, case-sensitivity half: the class is
recorded as `foo` only. -/
def dbLowerOnly : DB :=
  { classes := [⟨0, strL "foo", strL "class", none⟩],
    members := [⟨0, strL "m", strL "variable", some (strL "int"), none⟩],
    inheritance := [], enum_values := [] }

/-- Counterexample to C4 as stated: looking `Foo` up picks the row `FOO`
(most members) rather than the exact-case row, and the member-return-type
lookup fails on `Foo` while succeeding on `foo` — so it is not
case-insensitive. -/
theorem class_lookup_no_exact_case_preference :
    selectClassId dbTwoCase (strL "Foo") = some 11 ∧
    find_member_return_type dbLowerOnly (strL "Foo") (strL "m") = none ∧
    find_member_return_type dbLowerOnly (strL "foo") (strL "m") =
      some (strL "int") := by
  decide

/-- Witness for C4 (amended) at concrete lookups. -/
theorem class_lookup_case_rules_witness :
    (∃ c ∈ dbTwoCase.classes, c.id = 11 ∧
      lowerStr c.name = lowerStr (strL "Foo") ∧
      ∀ c2 ∈ dbTwoCase.classes, lowerStr c2.name = lowerStr (strL "Foo") →
        memberCount dbTwoCase c2.id ≤ memberCount dbTwoCase c.id) ∧
    (∃ c ∈ dbLowerOnly.classes, ∃ m ∈ dbLowerOnly.members,
      c.name = strL "foo" ∧ m.name = strL "m" ∧ m.class_id = c.id ∧
        m.return_type = some (strL "int")) :=
  ⟨(class_lookup_case_rules dbTwoCase (strL "Foo") (strL "x") (strL "x")).1
      11 (by decide),
   (class_lookup_case_rules dbLowerOnly (strL "x") (strL "foo") (strL "m")).2
      (strL "int") (by decide)⟩

/-- C7 (amended): `resolve_typedef` first cleans its argument; it returns
that cleaned name unchanged whenever no `classes` row whose name equals the
cleaned name has `symbol_type = 'typedef'`; and whenever several typedef rows
exist for a name, the selected row has a non-empty `base_class` as soon as
any of them does. -/
theorem resolve_typedef_fixed_on_clean_names (db : DB) (name n : Str) :
    (selectTypedefRow db (extract_clean_type name) = none →
      resolve_typedef db name = extract_clean_type name) ∧
    ((db.classes.any (fun c => c.name = n ∧ c.symbol_type = strL "typedef" ∧
        hasBase c)) = true →
      ∃ r, selectTypedefRow db n = some r ∧ hasBase r = true) := by
  constructor
  · intro h
    unfold resolve_typedef
    by_cases he : extract_clean_type name = [] ∨
        extract_clean_type name = strL "T" ∨ extract_clean_type name = strL "void"
    · rw [if_pos he]
    · rw [if_neg he]
      show rtStep db 3 (extract_clean_type name) = extract_clean_type name
      rw [show (3 : Nat) = 2 + 1 from rfl]
      unfold rtStep
      rw [h]
  · intro h
    simp only [List.any_eq_true, decide_eq_true_eq, Bool.and_eq_true] at h
    obtain ⟨c, hc, hname, htd, hbase⟩ := h
    have hrow : c ∈ db.classes.filter (fun r =>
        r.name = n ∧ r.symbol_type = strL "typedef") :=
      List.mem_filter.mpr ⟨hc, by simp [hname, htd]⟩
    have hfind : ((db.classes.filter (fun r =>
        r.name = n ∧ r.symbol_type = strL "typedef")).find? hasBase).isSome := by
      rw [List.find?_isSome]
      exact ⟨c, hrow, hbase⟩
    obtain ⟨r, hr⟩ := Option.isSome_iff_exists.mp hfind
    refine ⟨r, ?_, List.find?_some hr⟩
    unfold selectTypedefRow
    simp only [hr]

/-- Empty database for the C7 counterexample. -/
def dbNone : DB := ⟨[], [], [], []⟩

/-- Counterexample to C7 as stated: with no typedef rows at all,
`resolve_typedef` still rewrites `Foo::Bar` to `Bar` — the name is not
returned unchanged, because the function cleans it first. -/
theorem resolve_typedef_changes_unclean_name :
    resolve_typedef dbNone (strL "Foo::Bar") = strL "Bar" ∧
    strL "Bar" ≠ strL "Foo::Bar" := by
  decide

/-- Database for the C7 witness: two typedef rows named `X`, the first with
an empty base and the second with base `Y`. -/
def dbTwoTypedefs : DB :=
  { classes := [⟨0, strL "X", strL "typedef", some []⟩,
                ⟨1, strL "X", strL "typedef", some (strL "Y")⟩],
    members := [], inheritance := [], enum_values := [] }

/-- Witness for C7 (amended) at concrete inputs: a name with no typedef row
comes back cleaned and unchanged, and among the two `X` typedef rows the one
with a non-empty base is selected. -/
theorem resolve_typedef_fixed_witness :
    resolve_typedef dbTwoTypedefs (strL "A*") = strL "A" ∧
    ∃ r, selectTypedefRow dbTwoTypedefs (strL "X") = some r ∧
      hasBase r = true :=
  ⟨by
    have h := (resolve_typedef_fixed_on_clean_names dbTwoTypedefs
      (strL "A*") (strL "X")).1 (by decide)
    simpa using h,
   (resolve_typedef_fixed_on_clean_names dbTwoTypedefs
      (strL "A*") (strL "X")).2 (by decide)⟩

/-- C3 (amended): the assignment/initializer scan feeds Value Text Inference
with the *first* pair in query-match order whose declarator contains the
target and starts at or before the cursor row; later pairs are never
consulted, even when value-text inference on the chosen pair yields nothing. -/
theorem assignment_scan_takes_first_match (ms : List AssignMatch)
    (cursorRow : Nat) :
    infer_from_assignment ms cursorRow =
      match ms.find? (fun m => m.declHasTarget ∧ m.declStartRow ≤ cursorRow) with
      | some m => infer_from_value_text m.valueText
      | none => none := by
  induction ms with
  | nil => rfl
  | cons m rest ih =>
    by_cases hm : m.declHasTarget ∧ m.declStartRow ≤ cursorRow
    · simp [infer_from_assignment, List.find?, hm]
    · simp only [infer_from_assignment, if_neg hm, ih, List.find?]
      have : (decide (m.declHasTarget = true ∧ m.declStartRow ≤ cursorRow)) = false := by
        simpa using hm
      simp [this]

/-- The two matches of the C3 counterexample: the same target is first
initialised from `UFoo()` on row 0 and then reassigned from `UBar()` on
row 1, both before the cursor on row 5. -/
def msTwoAssigns : List AssignMatch :=
  [⟨true, 0, strL "UFoo()"⟩, ⟨true, 1, strL "UBar()"⟩]

/-- Counterexample to C3 as stated: the code feeds the *first* matching pair
(row 0, `UFoo()`) to value-text inference, while the pair with the greatest
start row at or before the cursor is the row-1 pair (`UBar()`), which would
infer a different type. -/
theorem assignment_scan_not_latest :
    infer_from_assignment msTwoAssigns 5 = some (strL "UFoo") ∧
    inferFromAssignmentLatest msTwoAssigns 5 = some (strL "UBar") ∧
    infer_from_assignment msTwoAssigns 5 ≠ inferFromAssignmentLatest msTwoAssigns 5 := by
  decide

/-- C8: `infer_from_value_text` applies the shapes of the specification
table to the trimmed initializer text in order with first match winning:
`CreateDefaultSubobject<T` yields `clean(T)`; `W<T` with `W` in
`{NewObject, TObjectPtr, TSharedPtr}` yields `clean(T)`; any other `W<T`
yields `clean(W)`; a leading `T(` yields `clean(T)`; otherwise no type is
inferred. -/
theorem value_text_inference_matches_spec_table (text : Str) :
    infer_from_value_text text = specValueInference text := by
  unfold infer_from_value_text specValueInference
  simp only [List.findSome?]
  cases h1 : cdsMatch (trim text) with
  | some cap => simp [shapeCds, h1]
  | none =>
    simp only [shapeCds, h1, Option.map_none']
    cases h2 : wrapMatch (trim text) with
    | some p =>
      obtain ⟨f, inner⟩ := p
      by_cases hf : f ∈ innerWrappers
      · simp [shapeKnownWrap, h2, hf]
      · simp [shapeKnownWrap, shapeOtherWrap, h2, hf]
    | none =>
      simp only [shapeKnownWrap, shapeOtherWrap, h2]
      cases h3 : ctorMatch (trim text) with
      | some f => simp [shapeCtor, h3]
      | none => simp [shapeCtor, h3]

/-- Any name the member-assembly loop ever pushes is a parent name from the
`inheritance` table. -/
theorem parentsOfId_subset (db : DB) (cid : Int) (p : Str)
    (hp : p ∈ parentsOfId db cid) : ∃ i ∈ db.inheritance, p = i.parent_name := by
  unfold parentsOfId at hp
  obtain ⟨i, hi, rfl⟩ := List.mem_map.mp hp
  exact ⟨i, List.mem_of_mem_filter hi, rfl⟩

/-- The parent list of a class id is no longer than the `inheritance` table. -/
theorem parentsOfId_length_le (db : DB) (cid : Int) :
    (parentsOfId db cid).length ≤ db.inheritance.length := by
  unfold parentsOfId
  rw [List.length_map]
  exact List.length_filter_le _ _

/-- The member-assembly loop finishes within fuel exceeding its decreasing
measure: `(K + 1) · |unvisited candidate names| + |stack|`, where `K` bounds
how many parents one iteration can push. -/
theorem fetchLoop_succeeds (db : DB) (S : Finset Str)
    (hS : ∀ i ∈ db.inheritance, i.parent_name ∈ S) :
    ∀ fuel : Nat, ∀ stack vis : List Str, ∀ acc : List Item,
      (∀ x ∈ stack, x ∈ S) →
      (db.inheritance.length + 1) * ((S \ vis.toFinset).card) + stack.length
        < fuel →
      (fetchLoop db fuel stack vis acc).isSome := by
  intro fuel
  induction fuel with
  | zero =>
    intro stack vis acc _ hμ
    omega
  | succ f ih =>
    intro stack vis acc hstack hμ
    cases stack with
    | nil => simp [fetchLoop]
    | cons cls rest =>
      have hcand : cls ∈ S := hstack cls (by simp)
      simp only [fetchLoop]
      by_cases hv : cls ∈ vis
      · rw [if_pos hv]
        refine ih rest vis acc (fun x hx => hstack x (by simp [hx])) ?_
        simp only [List.length_cons] at hμ
        omega
      · rw [if_neg hv]
        have hvis' : (cls :: vis).toFinset = insert cls vis.toFinset := by simp
        have hin : cls ∈ S \ vis.toFinset := by
          rw [Finset.mem_sdiff]
          exact ⟨hcand, by simpa using hv⟩
        have hcard : (S \ (cls :: vis).toFinset).card
            = (S \ vis.toFinset).card - 1 := by
          rw [hvis', Finset.sdiff_insert, Finset.card_erase_of_mem hin]
        have hpos : 1 ≤ (S \ vis.toFinset).card := Finset.card_pos.mpr ⟨cls, hin⟩
        cases hsel : selectClassId db cls with
        | none =>
          refine ih rest (cls :: vis) acc
            (fun x hx => hstack x (by simp [hx])) ?_
          simp only [List.length_cons] at hμ
          have hle : (S \ (cls :: vis).toFinset).card ≤ (S \ vis.toFinset).card := by
            omega
          have hmul := Nat.mul_le_mul_left (db.inheritance.length + 1) hle
          omega
        | some cid =>
          refine ih _ (cls :: vis) _ ?_ ?_
          · intro x hx
            rcases List.mem_append.mp hx with hx2 | hx2
            · obtain ⟨i, hi, rfl⟩ := parentsOfId_subset db cid x
                (List.mem_reverse.mp hx2)
              exact hS i hi
            · exact hstack x (by simp [hx2])
          · have hlen : ((parentsOfId db cid).reverse ++ rest).length
                ≤ db.inheritance.length + rest.length := by
              simp only [List.length_append, List.length_reverse]
              have := parentsOfId_length_le db cid
              omega
            simp only [List.length_cons] at hμ
            rw [hcard]
            have hK : (db.inheritance.length + 1) * ((S \ vis.toFinset).card - 1)
                + db.inheritance.length + 1
                = (db.inheritance.length + 1) * (S \ vis.toFinset).card := by
              have h1 : (S \ vis.toFinset).card - 1 + 1 = (S \ vis.toFinset).card := by
                omega
              calc (db.inheritance.length + 1) * ((S \ vis.toFinset).card - 1)
                    + db.inheritance.length + 1
                  = (db.inheritance.length + 1) * ((S \ vis.toFinset).card - 1)
                    + (db.inheritance.length + 1) := by omega
                _ = (db.inheritance.length + 1) * ((S \ vis.toFinset).card - 1 + 1) := by
                    rw [Nat.mul_succ]
                _ = (db.inheritance.length + 1) * (S \ vis.toFinset).card := by
                    rw [h1]
            omega

/-- C6: `fetch_members` terminates for every starting class name and every
database content, including cyclic or self-referencing `inheritance` rows:
with the explicit fuel bound `searchFuel`, the worklist loop always finishes
(fuel exhaustion, the model of non-termination, never occurs). -/
theorem fetch_members_terminates (db : DB) (c : Str) :
    ∃ res, fetchLoop db (searchFuel db) [c] [] [] = some res := by
  have hS : ∀ i ∈ db.inheritance, i.parent_name ∈
      insert c (db.inheritance.map (fun i => i.parent_name)).toFinset := by
    intro i hi
    exact Finset.mem_insert_of_mem (by
      rw [List.mem_toFinset]
      exact List.mem_map.mpr ⟨i, hi, rfl⟩)
  have hcard : (insert c (db.inheritance.map
      (fun i => i.parent_name)).toFinset).card ≤ db.inheritance.length + 1 := by
    calc (insert c (db.inheritance.map (fun i => i.parent_name)).toFinset).card
        ≤ (db.inheritance.map (fun i => i.parent_name)).toFinset.card + 1 :=
          Finset.card_insert_le _ _
      _ ≤ (db.inheritance.map (fun i => i.parent_name)).length + 1 := by
          have := (db.inheritance.map (fun i => i.parent_name)).toFinset_card_le
          omega
      _ = db.inheritance.length + 1 := by rw [List.length_map]
  have h := fetchLoop_succeeds db _ hS (searchFuel db) [c] [] []
    (fun x hx => by
      simp only [List.mem_singleton] at hx
      subst hx
      exact Finset.mem_insert_self _ _)
    (by
      have hsd : (insert c (db.inheritance.map
          (fun i => i.parent_name)).toFinset \ ([] : List Str).toFinset).card
          ≤ db.inheritance.length + 1 := by
        simpa using hcard
      have hmul := Nat.mul_le_mul_left (db.inheritance.length + 1) hsd
      unfold searchFuel
      have hsq : (db.inheritance.length + 1) * (db.inheritance.length + 1)
          ≤ (db.inheritance.length + 1) * (db.inheritance.length + 2) :=
        Nat.mul_le_mul_left _ (by omega)
      simp only [List.length_singleton]
      omega)
  exact Option.isSome_iff_exists.mp h

/-- Any name `find_member_return_type` ever pushes is a parent name from the
`inheritance` table. -/
theorem parentsOf_subset (db : DB) (cls : Str) (p : Str)
    (hp : p ∈ parentsOf db cls) : ∃ i ∈ db.inheritance, p = i.parent_name := by
  unfold parentsOf at hp
  obtain ⟨i, hi, rfl⟩ := List.mem_map.mp hp
  exact ⟨i, List.mem_of_mem_filter hi, rfl⟩

/-- The parent list of a class name is no longer than the `inheritance`
table. -/
theorem parentsOf_length_le (db : DB) (cls : Str) :
    (parentsOf db cls).length ≤ db.inheritance.length := by
  unfold parentsOf
  rw [List.length_map]
  exact List.length_filter_le _ _

/-- The member-search loop is fuel-insensitive upward: a run that finishes
also finishes with any larger fuel, with the same result. -/
theorem fmrtLoopV_mono (db : DB) (mem : Str) :
    ∀ f g : Nat, ∀ stack vis o, f ≤ g →
      fmrtLoopV db mem f stack vis = some o →
      fmrtLoopV db mem g stack vis = some o := by
  intro f
  induction f with
  | zero =>
    intro g stack vis o _ h
    cases stack with
    | nil => simpa [fmrtLoopV] using h
    | cons cls rest => simp [fmrtLoopV] at h
  | succ f ih =>
    intro g stack vis o hfg h
    cases stack with
    | nil => simpa [fmrtLoopV] using h
    | cons cls rest =>
      cases g with
      | zero => omega
      | succ g2 =>
        simp only [fmrtLoopV] at h ⊢
        by_cases hv : cls ∈ vis
        · rw [if_pos hv] at h ⊢
          exact ih g2 rest vis o (by omega) h
        · rw [if_neg hv] at h ⊢
          cases heff : effectiveReturn db cls mem with
          | some rt => rw [heff] at h; exact h
          | none => rw [heff] at h; exact ih g2 _ _ o (by omega) h

/-- A run of the member-search loop that finds a result keeps finding the
same result when more work is queued behind its worklist. -/
theorem fmrtLoopV_found_append (db : DB) (mem : Str) :
    ∀ f : Nat, ∀ a vis r vis2,
      fmrtLoopV db mem f a vis = some (some r, vis2) →
      ∀ b, fmrtLoopV db mem f (a ++ b) vis = some (some r, vis2) := by
  intro f
  induction f with
  | zero =>
    intro a vis r vis2 h b
    cases a with
    | nil => simp [fmrtLoopV] at h
    | cons cls rest => simp [fmrtLoopV] at h
  | succ f ih =>
    intro a vis r vis2 h b
    cases a with
    | nil => simp [fmrtLoopV] at h
    | cons cls rest =>
      simp only [fmrtLoopV, List.cons_append] at h ⊢
      by_cases hv : cls ∈ vis
      · rw [if_pos hv] at h ⊢
        exact ih rest vis r vis2 h b
      · rw [if_neg hv] at h ⊢
        cases heff : effectiveReturn db cls mem with
        | some rt => rw [heff] at h; exact h
        | none =>
          rw [heff] at h
          have h2 := ih _ _ r vis2 h b
          rw [List.append_assoc] at h2
          exact h2

/-- Sequential composition for the member-search loop: a run over `a` that
exhausts its worklist without a find continues as a run over `b` from the
final visited list. -/
theorem fmrtLoopV_none_append (db : DB) (mem : Str) :
    ∀ f : Nat, ∀ a vis vis2,
      fmrtLoopV db mem f a vis = some (none, vis2) →
      ∀ g b o, fmrtLoopV db mem g b vis2 = some o →
        fmrtLoopV db mem (f + g) (a ++ b) vis = some o := by
  intro f
  induction f with
  | zero =>
    intro a vis vis2 h g b o hb
    cases a with
    | nil =>
      simp only [fmrtLoopV, Option.some.injEq, Prod.mk.injEq] at h
      obtain ⟨_, rfl⟩ := h
      simpa using hb
    | cons cls rest => simp [fmrtLoopV] at h
  | succ f ih =>
    intro a vis vis2 h g b o hb
    cases a with
    | nil =>
      simp only [fmrtLoopV, Option.some.injEq, Prod.mk.injEq] at h
      obtain ⟨_, rfl⟩ := h
      exact fmrtLoopV_mono db mem g (f + 1 + g) b vis o (by omega) hb
    | cons cls rest =>
      have hstep : f + 1 + g = (f + g) + 1 := by omega
      rw [hstep]
      simp only [fmrtLoopV, List.cons_append] at h ⊢
      by_cases hv : cls ∈ vis
      · rw [if_pos hv] at h ⊢
        exact ih rest vis vis2 h g b o hb
      · rw [if_neg hv] at h ⊢
        cases heff : effectiveReturn db cls mem with
        | some rt => rw [heff] at h; simp at h
        | none =>
          rw [heff] at h
          have h2 := ih _ _ vis2 h g b o hb
          rw [List.append_assoc] at h2
          exact h2

/-- `dfsStep` only grows the visited list, provided each inner call does. -/
theorem dfsStep_vis_mono
    (next : List Str → Str → Option (Option Str × List Str))
    (hnext : ∀ vis cls r vis2, next vis cls = some (r, vis2) →
      ∀ x ∈ vis, x ∈ vis2) :
    ∀ l vis r vis2, dfsStep next vis l = some (r, vis2) → ∀ x ∈ vis, x ∈ vis2 := by
  intro l
  induction l with
  | nil =>
    intro vis r vis2 h x hx
    simp only [dfsStep, Option.some.injEq, Prod.mk.injEq] at h
    exact h.2 ▸ hx
  | cons cls more ih =>
    intro vis r vis2 h x hx
    simp only [dfsStep] at h
    cases hA : next vis cls with
    | none => rw [hA] at h; simp at h
    | some p =>
      obtain ⟨r1, vis1⟩ := p
      rw [hA] at h
      cases r1 with
      | some rt =>
        simp only [Option.some.injEq, Prod.mk.injEq] at h
        exact h.2 ▸ hnext vis cls _ vis1 hA x hx
      | none => exact ih vis1 r vis2 h x (hnext vis cls _ vis1 hA x hx)

/-- The recursive depth-first search only grows the visited list. -/
theorem dfsA_vis_mono (db : DB) (mem : Str) :
    ∀ f vis cls r vis2, dfsA db mem f vis cls = some (r, vis2) →
      ∀ x ∈ vis, x ∈ vis2 := by
  intro f
  induction f with
  | zero => intro vis cls r vis2 h; simp [dfsA] at h
  | succ f ih =>
    intro vis cls r vis2 h x hx
    simp only [dfsA] at h
    by_cases hv : cls ∈ vis
    · rw [if_pos hv] at h
      simp only [Option.some.injEq, Prod.mk.injEq] at h
      exact h.2 ▸ hx
    · rw [if_neg hv] at h
      cases heff : effectiveReturn db cls mem with
      | some rt =>
        rw [heff] at h
        simp only [Option.some.injEq, Prod.mk.injEq] at h
        exact h.2 ▸ List.mem_cons_of_mem _ hx
      | none =>
        rw [heff] at h
        exact dfsStep_vis_mono (dfsA db mem f) (fun v c r2 v2 hc => ih v c r2 v2 hc)
          _ (cls :: vis) r vis2 h x (List.mem_cons_of_mem _ hx)

/-- `dfsStep` over a list of candidate names inside `S` finishes when the
fuel exceeds the number of unvisited names of `S`, provided the inner search
does so and only grows the visited list. -/
theorem dfsStep_succeeds (db : DB) (mem : Str) (S : Finset Str) (f : Nat)
    (hnext : ∀ vis cls, cls ∈ S → (S \ vis.toFinset).card < f →
      (dfsA db mem f vis cls).isSome) :
    ∀ l vis, (∀ x ∈ l, x ∈ S) → (S \ vis.toFinset).card < f →
      (dfsStep (dfsA db mem f) vis l).isSome := by
  intro l
  induction l with
  | nil => intro vis _ _; simp [dfsStep]
  | cons cls more ih =>
    intro vis hl hcard
    simp only [dfsStep]
    cases hA : dfsA db mem f vis cls with
    | none =>
      have := hnext vis cls (hl cls (by simp)) hcard
      rw [hA] at this
      simp at this
    | some p =>
      obtain ⟨r1, vis1⟩ := p
      cases r1 with
      | some rt => simp
      | none =>
        refine ih vis1 (fun x hx => hl x (by simp [hx])) ?_
        have hsub : vis.toFinset ⊆ vis1.toFinset := by
          intro x hx
          rw [List.mem_toFinset] at hx ⊢
          exact dfsA_vis_mono db mem f vis cls none vis1 hA x hx
        calc (S \ vis1.toFinset).card ≤ (S \ vis.toFinset).card :=
              Finset.card_le_card (Finset.sdiff_subset_sdiff le_rfl hsub)
        _ < f := hcard

/-- The recursive depth-first search finishes when its fuel exceeds the
number of unvisited candidate names. -/
theorem dfsA_succeeds (db : DB) (mem : Str) (S : Finset Str)
    (hS : ∀ i ∈ db.inheritance, i.parent_name ∈ S) :
    ∀ f : Nat, ∀ vis cls, cls ∈ S → (S \ vis.toFinset).card < f →
      (dfsA db mem f vis cls).isSome := by
  intro f
  induction f with
  | zero => intro vis cls _ h; omega
  | succ f ih =>
    intro vis cls hcls hcard
    simp only [dfsA]
    by_cases hv : cls ∈ vis
    · simp [hv]
    · rw [if_neg hv]
      cases heff : effectiveReturn db cls mem with
      | some rt => simp
      | none =>
        have hin : cls ∈ S \ vis.toFinset := by
          rw [Finset.mem_sdiff]
          exact ⟨hcls, by simpa using hv⟩
        have hcard2 : (S \ (cls :: vis).toFinset).card < f := by
          have hvis' : (cls :: vis).toFinset = insert cls vis.toFinset := by simp
          have hpos : 1 ≤ (S \ vis.toFinset).card := Finset.card_pos.mpr ⟨cls, hin⟩
          rw [hvis', Finset.sdiff_insert, Finset.card_erase_of_mem hin]
          omega
        refine dfsStep_succeeds db mem S f (fun v c hc hcd => ih v c hc hcd)
          _ (cls :: vis) ?_ hcard2
        intro x hx
        obtain ⟨i, hi, rfl⟩ := parentsOf_subset db cls x (List.mem_reverse.mp hx)
        exact hS i hi

/-- The member-search loop finishes within fuel exceeding the same measure
as `fetchLoop` (proved identically). -/
theorem fmrtLoopV_succeeds (db : DB) (mem : Str) (S : Finset Str)
    (hS : ∀ i ∈ db.inheritance, i.parent_name ∈ S) :
    ∀ fuel : Nat, ∀ stack vis : List Str,
      (∀ x ∈ stack, x ∈ S) →
      (db.inheritance.length + 1) * ((S \ vis.toFinset).card) + stack.length
        < fuel →
      (fmrtLoopV db mem fuel stack vis).isSome := by
  intro fuel
  induction fuel with
  | zero => intro stack vis _ hμ; omega
  | succ f ih =>
    intro stack vis hstack hμ
    cases stack with
    | nil => simp [fmrtLoopV]
    | cons cls rest =>
      have hcand : cls ∈ S := hstack cls (by simp)
      simp only [fmrtLoopV]
      by_cases hv : cls ∈ vis
      · rw [if_pos hv]
        refine ih rest vis (fun x hx => hstack x (by simp [hx])) ?_
        simp only [List.length_cons] at hμ
        omega
      · rw [if_neg hv]
        cases heff : effectiveReturn db cls mem with
        | some rt => simp
        | none =>
          have hvis' : (cls :: vis).toFinset = insert cls vis.toFinset := by simp
          have hin : cls ∈ S \ vis.toFinset := by
            rw [Finset.mem_sdiff]
            exact ⟨hcand, by simpa using hv⟩
          have hcard : (S \ (cls :: vis).toFinset).card
              = (S \ vis.toFinset).card - 1 := by
            rw [hvis', Finset.sdiff_insert, Finset.card_erase_of_mem hin]
          have hpos : 1 ≤ (S \ vis.toFinset).card := Finset.card_pos.mpr ⟨cls, hin⟩
          refine ih _ (cls :: vis) ?_ ?_
          · intro x hx
            rcases List.mem_append.mp hx with hx2 | hx2
            · obtain ⟨i, hi, rfl⟩ := parentsOf_subset db cls x
                (List.mem_reverse.mp hx2)
              exact hS i hi
            · exact hstack x (by simp [hx2])
          · have hlen : ((parentsOf db cls).reverse ++ rest).length
                ≤ db.inheritance.length + rest.length := by
              simp only [List.length_append, List.length_reverse]
              have := parentsOf_length_le db cls
              omega
            simp only [List.length_cons] at hμ
            rw [hcard]
            have hK : (db.inheritance.length + 1) * ((S \ vis.toFinset).card - 1)
                + db.inheritance.length + 1
                = (db.inheritance.length + 1) * (S \ vis.toFinset).card := by
              have h1 : (S \ vis.toFinset).card - 1 + 1
                  = (S \ vis.toFinset).card := by omega
              calc (db.inheritance.length + 1) * ((S \ vis.toFinset).card - 1)
                    + db.inheritance.length + 1
                  = (db.inheritance.length + 1) * ((S \ vis.toFinset).card - 1)
                    + (db.inheritance.length + 1) := by omega
                _ = (db.inheritance.length + 1)
                    * ((S \ vis.toFinset).card - 1 + 1) := by rw [Nat.mul_succ]
                _ = (db.inheritance.length + 1) * (S \ vis.toFinset).card := by
                    rw [h1]
            omega

/-- A finished run of `dfsStep` over a class list is simulated by a finished
run of the worklist loop over the same list, given that single-class
depth-first searches are so simulated. -/
theorem dfsStep_to_loop (db : DB) (mem : Str) (f : Nat)
    (hE : ∀ vis cls o, dfsA db mem f vis cls = some o →
      ∃ g, fmrtLoopV db mem g [cls] vis = some o) :
    ∀ l vis o, dfsStep (dfsA db mem f) vis l = some o →
      ∃ g, fmrtLoopV db mem g l vis = some o := by
  intro l
  induction l with
  | nil =>
    intro vis o h
    simp only [dfsStep, Option.some.injEq] at h
    exact ⟨0, by simp [fmrtLoopV, h]⟩
  | cons cls more ih =>
    intro vis o h
    simp only [dfsStep] at h
    cases hA : dfsA db mem f vis cls with
    | none => rw [hA] at h; simp at h
    | some p =>
      obtain ⟨r1, vis1⟩ := p
      rw [hA] at h
      cases r1 with
      | some rt =>
        simp only [Option.some.injEq] at h
        obtain ⟨g1, hg1⟩ := hE vis cls (some rt, vis1) hA
        refine ⟨g1, ?_⟩
        have h2 := fmrtLoopV_found_append db mem g1 [cls] vis rt vis1 hg1 more
        simpa [h] using h2
      | none =>
        obtain ⟨g2, hg2⟩ := ih vis1 o h
        obtain ⟨g1, hg1⟩ := hE vis cls (none, vis1) hA
        refine ⟨g1 + g2, ?_⟩
        have h2 := fmrtLoopV_none_append db mem g1 [cls] vis vis1 hg1 g2 more o hg2
        simpa using h2

/-- A finished run of the recursive depth-first search is simulated by a
finished run of the worklist loop started on the singleton stack, with the
same result and final visited list. -/
theorem dfsA_to_loop (db : DB) (mem : Str) :
    ∀ f vis cls o, dfsA db mem f vis cls = some o →
      ∃ g, fmrtLoopV db mem g [cls] vis = some o := by
  intro f
  induction f with
  | zero => intro vis cls o h; simp [dfsA] at h
  | succ f ih =>
    intro vis cls o h
    simp only [dfsA] at h
    by_cases hv : cls ∈ vis
    · rw [if_pos hv] at h
      exact ⟨2, by simp [fmrtLoopV, hv, ← h]⟩
    · rw [if_neg hv] at h
      cases heff : effectiveReturn db cls mem with
      | some rt =>
        rw [heff] at h
        refine ⟨1, ?_⟩
        simp only [fmrtLoopV, if_neg hv, heff]
        exact h
      | none =>
        rw [heff] at h
        obtain ⟨g, hg⟩ := dfsStep_to_loop db mem f ih _ (cls :: vis) o h
        refine ⟨g + 1, ?_⟩
        simp only [fmrtLoopV, if_neg hv, heff]
        simpa using hg

/-- Database for the C1 counterexample: `C` inherits `A` then `B` (in that
table order), `B` inherits `BB`; the member `m` exists on `A` with return
type `X` and on `BB` with return type `Y`.  Breadth-first order visits `A`
(level 1) before `BB` (level 2); the implemented stack order visits `B` and
then `BB` before `A`. -/
def dbDiamond : DB :=
  { classes :=
      [⟨0, strL "C", strL "class", none⟩, ⟨1, strL "A", strL "class", none⟩,
       ⟨2, strL "B", strL "class", none⟩, ⟨3, strL "BB", strL "class", none⟩],
    members :=
      [⟨1, strL "m", strL "function", some (strL "X"), none⟩,
       ⟨3, strL "m", strL "function", some (strL "Y"), none⟩],
    inheritance := [⟨0, strL "A"⟩, ⟨0, strL "B"⟩, ⟨2, strL "BB"⟩],
    enum_values := [] }

/-- Counterexample to C1 as stated: on `dbDiamond`, the implemented search
returns `Y` (found depth-first via the most recently pushed parent `B` and
its parent `BB`), while the breadth-first, level-by-level search described
by the claim would return `X` from the direct parent `A`. -/
theorem find_member_search_not_breadth_first :
    find_member_return_type dbDiamond (strL "C") (strL "m") = some (strL "Y") ∧
    findMemberBFS dbDiamond (strL "C") (strL "m") = some (strL "X") ∧
    find_member_return_type dbDiamond (strL "C") (strL "m") ≠
      findMemberBFS dbDiamond (strL "C") (strL "m") := by
  decide

/-- C1 (amended): `find_member_return_type` explores the inheritance graph
depth-first — the worklist is a LIFO stack, so after a class misses, its
most recently pushed parent (the last parent in table order) is explored
next, together with that parent's whole ancestry, before earlier parents —
and it returns the cleaned `return_type` from the first class in that
depth-first order holding a matching member row with a non-NULL return type.
Formally, the implemented worklist search coincides with the recursive
depth-first search `findMemberDFS`. -/
theorem find_member_search_is_depth_first (db : DB) (cls mem : Str) :
    find_member_return_type db cls mem = findMemberDFS db cls mem := by
  show (match fmrtLoopV db mem (searchFuel db)
        [resolve_typedef db (extract_clean_type cls)] [] with
      | some (r, _) => r
      | none => none)
    = (match dfsA db mem (searchFuel db) []
        (resolve_typedef db (extract_clean_type cls)) with
      | some (r, _) => r
      | none => none)
  have hS : ∀ i ∈ db.inheritance, i.parent_name ∈
      insert (resolve_typedef db (extract_clean_type cls))
        (db.inheritance.map (fun i => i.parent_name)).toFinset := by
    intro i hi
    exact Finset.mem_insert_of_mem (by
      rw [List.mem_toFinset]
      exact List.mem_map.mpr ⟨i, hi, rfl⟩)
  have hcard : (insert (resolve_typedef db (extract_clean_type cls))
      (db.inheritance.map (fun i => i.parent_name)).toFinset).card
      ≤ db.inheritance.length + 1 := by
    calc (insert (resolve_typedef db (extract_clean_type cls))
        (db.inheritance.map (fun i => i.parent_name)).toFinset).card
        ≤ (db.inheritance.map (fun i => i.parent_name)).toFinset.card + 1 :=
          Finset.card_insert_le _ _
      _ ≤ (db.inheritance.map (fun i => i.parent_name)).length + 1 := by
          have := (db.inheritance.map (fun i => i.parent_name)).toFinset_card_le
          omega
      _ = db.inheritance.length + 1 := by rw [List.length_map]
  have hdfs : (dfsA db mem (searchFuel db) []
      (resolve_typedef db (extract_clean_type cls))).isSome := by
    refine dfsA_succeeds db mem _ hS (searchFuel db) []
      (resolve_typedef db (extract_clean_type cls))
      (Finset.mem_insert_self _ _) ?_
    unfold searchFuel
    have hle : db.inheritance.length + 1
        ≤ (db.inheritance.length + 1) * (db.inheritance.length + 2) :=
      Nat.le_mul_of_pos_right _ (by omega)
    simp only [List.toFinset_nil, Finset.sdiff_empty]
    omega
  have hloop : (fmrtLoopV db mem (searchFuel db)
      [resolve_typedef db (extract_clean_type cls)] []).isSome := by
    refine fmrtLoopV_succeeds db mem _ hS (searchFuel db) _ []
      (fun x hx => by
        simp only [List.mem_singleton] at hx
        subst hx
        exact Finset.mem_insert_self _ _) ?_
    unfold searchFuel
    have hmul := Nat.mul_le_mul_left (db.inheritance.length + 1) hcard
    have hsq : (db.inheritance.length + 1) * (db.inheritance.length + 1)
        ≤ (db.inheritance.length + 1) * (db.inheritance.length + 2) :=
      Nat.mul_le_mul_left _ (by omega)
    simp only [List.toFinset_nil, Finset.sdiff_empty, List.length_singleton]
    omega
  obtain ⟨o, ho⟩ := Option.isSome_iff_exists.mp hdfs
  obtain ⟨o2, ho2⟩ := Option.isSome_iff_exists.mp hloop
  obtain ⟨g, hg⟩ := dfsA_to_loop db mem (searchFuel db) [] _ o ho
  have hg2 := fmrtLoopV_mono db mem g (g + searchFuel db) _ _ o (by omega) hg
  have ho2b := fmrtLoopV_mono db mem (searchFuel db) (g + searchFuel db)
    _ _ o2 (by omega) ho2
  have hoo : o2 = o := by
    rw [hg2] at ho2b
    injection ho2b with h3
    exact h3.symm
  rw [ho, ho2, hoo]

/-- Every pair produced by `withLefts` carries a child of the scanned list. -/
theorem withLefts_fst_mem :
    ∀ l acc p, p ∈ withLefts acc l → p.1 ∈ l := by
  intro l
  induction l with
  | nil => intro acc p h; simp [withLefts] at h
  | cons c rest ih =>
    intro acc p h
    simp only [withLefts, List.mem_cons] at h
    rcases h with rfl | h2
    · simp
    · exact List.mem_cons_of_mem _ (ih (c :: acc) p h2)

/-- The ERROR-recovery scan fires on nothing when no child is a `.`, `->` or
`::` token — in particular a lone `:` child never triggers it. -/
theorem errorScan_none (children : List RTree)
    (h : ∀ c ∈ children, c.kind ≠ strL "." ∧ c.kind ≠ strL "->" ∧
      c.kind ≠ strL "::") : errorScan children = none := by
  unfold errorScan
  apply List.findSome?_eq_none_iff.mpr
  intro p hp
  have hmem : p.1 ∈ children := withLefts_fst_mem children [] p (by
    simpa using List.mem_reverse.mp hp)
  obtain ⟨h1, h2, h3⟩ := h p.1 hmem
  simp [h1, h2, h3]

/-- The ancestor walk falls through when no ancestor is a field expression
or qualified identifier and no ERROR ancestor holds an operator child. -/
theorem walkUp_none :
    ∀ path : List Crumb, ∀ t : RTree,
      (∀ a ∈ nodeChain t path, a.kind ≠ strL "field_expression" ∧
        a.kind ≠ strL "qualified_identifier") →
      (∀ a ∈ nodeChain t path, a.kind = strL "ERROR" →
        ∀ c ∈ a.children, c.kind ≠ strL "." ∧ c.kind ≠ strL "->" ∧
          c.kind ≠ strL "::") →
      walkUp t path = none := by
  have hhere : ∀ t : RTree,
      (t.kind ≠ strL "field_expression" ∧ t.kind ≠ strL "qualified_identifier") →
      (t.kind = strL "ERROR" →
        ∀ c ∈ t.children, c.kind ≠ strL "." ∧ c.kind ≠ strL "->" ∧
          c.kind ≠ strL "::") →
      walkUpHere t = none := by
    intro t h12 herr1
    obtain ⟨h1, h2⟩ := h12
    unfold walkUpHere
    rw [if_neg (by simpa using h1), if_neg (by simpa using h2)]
    by_cases he : t.kind = strL "ERROR"
    · rw [if_pos he, errorScan_none t.children (herr1 he)]
    · rw [if_neg he]
  intro path
  induction path with
  | nil =>
    intro t hanc herr
    have hself : t ∈ nodeChain t [] := by simp [nodeChain]
    simp only [walkUp]
    rw [hhere t (hanc t hself) (herr t hself)]
  | cons cr rest ih =>
    intro t hanc herr
    have hself : t ∈ nodeChain t (cr :: rest) := by simp [nodeChain]
    have hchain : ∀ a ∈ nodeChain (rebuild cr t) rest,
        a ∈ nodeChain t (cr :: rest) := by
      intro a ha
      simp [nodeChain, ha]
    simp only [walkUp]
    rw [hhere t (hanc t hself) (herr t hself)]
    exact ih (rebuild cr t) (fun a ha => hanc a (hchain a ha))
      (fun a ha => herr a (hchain a ha))

/-- C10: in the ERROR-ancestor recovery path only child tokens of kind `.`,
`->` or `::` trigger operator handling — a lone `:` child of an ERROR node
never does (the lone-`:` promotion happens only in step 1, when the cursor
node itself is the `:` token) — so when the cursor is not on an operator
token and no other ancestor rule applies, a partial `::` inside an ERROR
node falls through to the implicit-`this` fallback or to an empty result. -/
theorem error_scan_ignores_lone_colon (z : Zip)
    (hk : z.focus.kind ∉ [strL ".", strL "->", strL "::", strL ":"])
    (hanc : ∀ a ∈ nodeChain z.focus z.path,
      a.kind ≠ strL "field_expression" ∧ a.kind ≠ strL "qualified_identifier")
    (herr : ∀ a ∈ nodeChain z.focus z.path, a.kind = strL "ERROR" →
      ∀ c ∈ a.children, c.kind ≠ strL "." ∧ c.kind ≠ strL "->" ∧
        c.kind ≠ strL "::") :
    (∃ c, classify z = CAction.implicitThis c) ∨ classify z = CAction.empty := by
  have hb1 : ¬(z.focus.kind = strL "." ∨ z.focus.kind = strL "->" ∨
      z.focus.kind = strL "::" ∨ z.focus.kind = strL ":") := by
    simpa using hk
  have hwalk : walkUp z.focus z.path = none :=
    walkUp_none z.path z.focus hanc herr
  unfold classify
  simp only [if_neg hb1, hwalk]
  by_cases hid : z.focus.kind ∈ identKinds
  · rw [if_pos hid]
    cases henc : enclosingClassName z.focus z.path with
    | some c => exact Or.inl ⟨c, rfl⟩
    | none => exact Or.inr rfl
  · rw [if_neg hid]
    exact Or.inr rfl

/-- Cursor zipper for the C10 witness: the cursor sits on the identifier
`obj` inside an ERROR node whose other child is a lone `:` token (the user
has typed `obj:` of a partial `obj::`). -/
def zLoneColon : Zip :=
  { focus := RTree.mk (strL "identifier") (strL "obj") none [],
    path := [⟨[], strL "ERROR", strL "obj:", none,
              [RTree.mk (strL ":") (strL ":") none []]⟩,
             ⟨[], strL "translation_unit", strL "obj:", none, []⟩] }

/-- Witness for C10 at the concrete partial-`::` zipper. -/
theorem error_scan_ignores_lone_colon_witness :
    (∃ c, classify zLoneColon = CAction.implicitThis c) ∨
      classify zLoneColon = CAction.empty :=
  error_scan_ignores_lone_colon zLoneColon (by decide) (by decide) (by decide)
